/-
Verification of the arc-reader-rs codec pipeline (BURIKO/ETHORNELL
asset extractor) against its natural-language specification.

The Rust sources are shallowly embedded:

* byte buffers are `List Nat` whose entries are byte values (< 256 on
  genuine inputs); operations that truncate to `u8`/`u32` in Rust take
  the result modulo 256 / 2^32 at exactly the places the source does
  (`wrapping_*`, `as u8`, `as u16`, shifts on fixed-width integers);
* plain (non-`wrapping`) unsigned arithmetic follows checked semantics:
  an overflow / underflow, an out-of-bounds index or a failed slice,
  i.e. a Rust panic, is modelled as `Except.error ArcError.Panic`;
* `i32` values are represented by their 32-bit two's-complement bit
  pattern as a `Nat` below 2^32 where the source manipulates patterns
  (`bse_rand`), and by `Int` where the source compares signed values;
* loops without an obvious structural measure take a fuel parameter;
  running out of fuel is also `ArcError.Panic`, so every theorem that
  is conditioned on an `Except.ok` result is conservative;
* fallible Rust functions returning `ArcResult` map to
  `Except ArcError`; `Option`-returning functions map to `Option`.
-/
import Mathlib

set_option maxRecDepth 10000

/-- Error type mirroring `error.rs` (`ArcError`); `Panic` additionally
models Rust panics (integer over/underflow, out-of-bounds indexing,
fuel exhaustion of the embedding). -/
inductive ArcError where
  | Io : ArcError
  | InvalidFormat : ArcError
  | IndexOutOfBounds : Nat → Nat → ArcError
  | InvalidFileName : ArcError
  | BseDecryptError : ArcError
  | DscDecryptError : ArcError
  | CbgDecryptError : ArcError
  | PngProcessError : ArcError
  | UnsupportedFileType : ArcError
  | Panic : ArcError
deriving DecidableEq, Repr

abbrev ArcResult (α : Type) := Except ArcError α

instance {E A : Type} [DecidableEq E] [DecidableEq A] : DecidableEq (Except E A) :=
  fun a b =>
    match a, b with
    | .ok x, .ok y => decidable_of_iff (x = y) (by simp)
    | .error x, .error y => decidable_of_iff (x = y) (by simp)
    | .ok _, .error _ => isFalse (by simp)
    | .error _, .ok _ => isFalse (by simp)

/-- Bounds-checked list read: Rust `l[i]` (panic on out of bounds). -/
def getB (l : List Nat) (i : Nat) : ArcResult Nat :=
  match l.get? i with
  | some b => .ok b
  | none => .error .Panic

/-- Bounds-checked list write: Rust `l[i] = x` (panic on out of bounds). -/
def setB (l : List Nat) (i : Nat) (x : Nat) : ArcResult (List Nat) :=
  if i < l.length then .ok (l.set i x) else .error .Panic

/-- Little-endian `u32` read of `l[i..i+4]` (`read32` in `decrypt.rs`,
on a cursor positioned at `i`); fails like the Rust slice indexing when
fewer than four bytes remain. -/
def read32At (l : List Nat) (i : Nat) : Option Nat :=
  match l.get? i, l.get? (i+1), l.get? (i+2), l.get? (i+3) with
  | some a, some b, some c, some d => some (a + b * 256 + c * 65536 + d * 16777216)
  | _, _, _, _ => none

/-- Little-endian encoding of a `u32` into four bytes
(`u32::to_le_bytes`). -/
def le32 (n : Nat) : List Nat :=
  [n % 256, n / 256 % 256, n / 65536 % 256, n / 16777216 % 256]

theorem le32_length (n : Nat) : (le32 n).length = 4 := rfl

/-- Inversion for `Except` bind, used to peel the sequential steps of
the embedded decoders. -/
theorem bind_ok {E A B : Type} {e : Except E A} {f : A → Except E B} {b : B}
    (h : (e >>= f) = .ok b) : ∃ a, e = .ok a ∧ f a = .ok b := by
  cases e with
  | ok a => exact ⟨a, rfl, h⟩
  | error _ => exact absurd h (by simp [Bind.bind, Except.bind])

/-! ### `decrypt.rs`: `my_loword`, `my_hiword`, `hash_update` -/

/-- `my_loword` of `decrypt.rs`: `(v & 0xFFFF) as u16`. -/
def my_loword (v : Nat) : Nat := v % 65536

/-- `my_hiword` of `decrypt.rs`: `(v >> 16) as u16` (for `v < 2^32`
the truncation to `u16` is the identity). -/
def my_hiword (v : Nat) : Nat := v / 65536 % 65536

/-- `hash_update` of `decrypt.rs` on the 32-bit state `h`; returns the
updated state and the produced keystream value `eax & 0x7FFF`.  All
arithmetic is `u32` wrapping (`wrapping_mul` / `wrapping_add`). -/
def hash_update (h : Nat) : Nat × Nat :=
  let edx := 20021 * my_loword h % 4294967296
  let eax := (20021 * my_hiword h + 346 * h + my_hiword edx) % 4294967296
  let h2 := (my_loword eax * 65536 + my_loword edx + 1) % 4294967296
  (h2, eax % 32768)

/-- The keystream of `n` values obtained by iterating `hash_update`
from seed `s` (as both `dsc.rs` and `cbg.rs` do byte per byte). -/
def keystream (s : Nat) : Nat → List Nat
  | 0 => []
  | n+1 => (hash_update s).2 :: keystream (hash_update s).1 n

/-- The spec's formula for `hash_update`, written with the spec's
bitwise operators:
`lo = h & 0xFFFF, hi = (h >> 16) & 0xFFFF, edx = 20021 * lo,
eax = 20021 * hi + 346 * h + (edx >> 16),
h = ((eax & 0xFFFF) << 16) + (edx & 0xFFFF) + 1, return eax & 0x7FFF`,
all arithmetic 32-bit wrapping. -/
def hash_update_spec (h : Nat) : Nat × Nat :=
  let lo := h &&& 0xFFFF
  let hi := (h >>> 16) &&& 0xFFFF
  let edx := 20021 * lo % 4294967296
  let eax := (20021 * hi + 346 * h + (edx >>> 16)) % 4294967296
  let h2 := (((eax &&& 0xFFFF) <<< 16) + (edx &&& 0xFFFF) + 1) % 4294967296
  (h2, eax &&& 0x7FFF)

theorem and_mask_eq_mod (n k : Nat) : n &&& (2 ^ k - 1) = n % 2 ^ k :=
  Nat.and_pow_two_sub_one_eq_mod n k

/-- C8: `hash_update` computes exactly the spec formula
(`edx = 20021·(h & 0xFFFF)`; `eax = 20021·(h >> 16) + 346·h + (edx >> 16)`;
`h' = ((eax & 0xFFFF) << 16) + (edx & 0xFFFF) + 1`; result `eax & 0x7FFF`,
all 32-bit wrapping), and the keystream drawn from a seed is
deterministic: any longer run extends a shorter run of the same seed,
so two runs with the same seed yield identical outputs. -/
theorem hash_update_matches_spec :
    (∀ h, h < 4294967296 → hash_update h = hash_update_spec h) ∧
    (∀ s n m, (keystream s (n + m)).take n = keystream s n) := by
  constructor
  · intro h hlt
    have h16 : h &&& 0xFFFF = h % 65536 := by
      simpa using and_mask_eq_mod h 16
    have hsr : h >>> 16 = h / 65536 := by
      simp [Nat.shiftRight_eq_div_pow]
    have hhi : (h >>> 16) &&& 0xFFFF = h / 65536 % 65536 := by
      rw [hsr]; simpa using and_mask_eq_mod (h / 65536) 16
    unfold hash_update hash_update_spec my_loword my_hiword
    have hedx : 20021 * (h &&& 0xFFFF) % 4294967296
        = 20021 * (h % 65536) % 4294967296 := by rw [h16]
    simp only [h16, hhi]
    have edxlt : 20021 * (h % 65536) % 4294967296 < 4294967296 :=
      Nat.mod_lt _ (by norm_num)
    set edx := 20021 * (h % 65536) % 4294967296 with hedxdef
    have hesr : edx >>> 16 = edx / 65536 := by
      simp [Nat.shiftRight_eq_div_pow]
    have hehi : edx / 65536 % 65536 = edx / 65536 := by
      apply Nat.mod_eq_of_lt
      omega
    rw [hesr, hehi]
    set eax := (20021 * (h / 65536 % 65536) + 346 * h + edx / 65536) % 4294967296
    have e16 : eax &&& 0xFFFF = eax % 65536 := by
      simpa using and_mask_eq_mod eax 16
    have x15 : eax &&& 0x7FFF = eax % 32768 := by
      simpa using and_mask_eq_mod eax 15
    have d16 : edx &&& 0xFFFF = edx % 65536 := by
      simpa using and_mask_eq_mod edx 16
    rw [e16, x15, d16, Nat.shiftLeft_eq]
  · intro s n m
    induction n generalizing s with
    | zero => simp [keystream]
    | succ k ih =>
      simp only [Nat.succ_add, keystream, List.take_succ_cons, ih]

/-- Witness: the spec formula agrees with the code at state 5, and the
keystream from seed 1 is prefix-stable. -/
theorem hash_update_matches_spec_witness :
    hash_update 5 = hash_update_spec 5 ∧ (keystream 1 (2 + 1)).take 2 = keystream 1 2 :=
  ⟨hash_update_matches_spec.1 5 (by norm_num), hash_update_matches_spec.2 1 2 1⟩

/-! ### `ogg.rs`: prelude strip / reconstruct -/

/-- `ogg::is_valid`: length at least 68 and bytes 64..68 equal
`"OggS"` (`[0x4F, 0x67, 0x67, 0x53]`). -/
def ogg_is_valid (data : List Nat) : Bool :=
  68 ≤ data.length && decide ((data.drop 64).take 4 = [0x4F, 0x67, 0x67, 0x53])

/-- `ogg::remove_header`: asserts `is_valid` (panic modelled as `none`)
and returns the bytes from offset 64 on. -/
def remove_header (data : List Nat) : Option (List Nat) :=
  if ogg_is_valid data then some (data.drop 64) else none

/-- The literal 64-byte header template of `ogg::add_header` before the
two `copy_from_slice` splices. -/
def ogg_header_base : List Nat :=
  [0x40, 0x00, 0x00, 0x00, 0x62, 0x77, 0x20, 0x20,
   0x00, 0x00, 0x00, 0x00,
   0x00, 0x00, 0x00, 0x00,
   0x44, 0xAC, 0x00, 0x00, 0x01, 0x00, 0x00, 0x00,
   0x00, 0x00, 0x00, 0x00, 0x00, 0x00, 0x00, 0x00,
   0x00, 0x00, 0x00, 0x00, 0x00, 0x00, 0x00, 0x00,
   0x00, 0x00, 0x00, 0x00, 0x00, 0x00, 0x00, 0x00,
   0x03, 0x00, 0x00, 0x00, 0x00, 0x00, 0x00, 0x00,
   0x00, 0x00, 0x00, 0x00, 0x00, 0x00, 0x00, 0x00]

/-- `header[i..i+v.len()].copy_from_slice(v)`. -/
def splice (l : List Nat) (i : Nat) (v : List Nat) : List Nat :=
  l.take i ++ v ++ l.drop (i + v.length)

theorem splice_length (l v : List Nat) (i : Nat) (h : i + v.length ≤ l.length) :
    (splice l i v).length = l.length := by
  simp only [splice, List.length_append, List.length_take, List.length_drop]
  omega

theorem ogg_header_spliced_length (a b : List Nat) (ha : a.length = 4)
    (hb : b.length = 4) :
    (splice (splice ogg_header_base 8 a) 12 b).length = 64 := by
  have hbase : ogg_header_base.length = 64 := by decide
  have h1 : (splice ogg_header_base 8 a).length = 64 := by
    rw [splice_length _ _ _ (by rw [ha, hbase]; omega)]
    exact hbase
  rw [splice_length _ _ _ (by rw [hb, h1]; omega)]
  exact h1

/-- `ogg::add_header`: splice the data length into bytes 8..12 and the
PCM sample count into bytes 12..16 of the template, then append the
data.  `calculate_sample_count` decodes the OGG with the external
`lewton` library (out of scope per the spec), so it is abstracted as a
function parameter `sc`. -/
def add_header (sc : List Nat → Nat) (data : List Nat) : List Nat :=
  splice (splice ogg_header_base 8 (le32 (data.length % 4294967296))) 12
    (le32 (sc data % 4294967296)) ++ data

theorem add_header_take_64 (sc : List Nat → Nat) (data : List Nat) :
    (add_header sc data).take 64
      = splice (splice ogg_header_base 8 (le32 (data.length % 4294967296))) 12
          (le32 (sc data % 4294967296)) := by
  have hlen : (splice (splice ogg_header_base 8 (le32 (data.length % 4294967296))) 12
      (le32 (sc data % 4294967296))).length = 64 :=
    ogg_header_spliced_length _ _ (le32_length _) (le32_length _)
  rw [add_header, List.take_append_eq_append_take, hlen]
  simp [hlen]

theorem add_header_drop_64 (sc : List Nat → Nat) (data : List Nat) :
    (add_header sc data).drop 64 = data := by
  have hlen : (splice (splice ogg_header_base 8 (le32 (data.length % 4294967296))) 12
      (le32 (sc data % 4294967296))).length = 64 :=
    ogg_header_spliced_length _ _ (le32_length _) (le32_length _)
  rw [add_header, List.drop_append_eq_append_drop, hlen]
  simp [hlen]

/-- C3: OGG prelude round-trip.  For every byte vector `x` that begins
with the `OggS` magic, and any sample-count oracle `sc`,
`remove_header (add_header x) = x`; moreover `add_header` prepends
exactly 64 bytes (output length is `64 + x.length` and the appended
tail is `x`) and `remove_header` returns the suffix from offset 64 of
any input it accepts. -/
theorem ogg_round_trip (sc : List Nat → Nat) (x : List Nat)
    (hmagic : x.take 4 = [0x4F, 0x67, 0x67, 0x53]) :
    remove_header (add_header sc x) = some x ∧
    (add_header sc x).length = 64 + x.length ∧
    (add_header sc x).drop 64 = x ∧
    (∀ y, ogg_is_valid y → remove_header y = some (y.drop 64)) := by
  have hx4 : 4 ≤ x.length := by
    by_contra hlt
    have : (x.take 4).length < 4 := by
      simp only [List.length_take]
      omega
    rw [hmagic] at this
    simp at this
  have hlen : (add_header sc x).length = 64 + x.length := by
    rw [add_header, List.length_append, ogg_header_spliced_length _ _ (le32_length _) (le32_length _)]
  have hdrop : (add_header sc x).drop 64 = x := add_header_drop_64 sc x
  have hvalid : ogg_is_valid (add_header sc x) = true := by
    unfold ogg_is_valid
    rw [hdrop, hlen]
    simp [hmagic]
    omega
  refine ⟨?_, hlen, hdrop, ?_⟩
  · rw [remove_header, hvalid]
    simp [hdrop]
  · intro y hy
    rw [remove_header, hy]
    simp

/-- Witness: the round trip at the four-byte stream `"OggS"` with the
constant-zero sample counter. -/
theorem ogg_round_trip_witness :
    remove_header (add_header (fun _ => 0) [0x4F, 0x67, 0x67, 0x53])
        = some [0x4F, 0x67, 0x67, 0x53] ∧
    (add_header (fun _ => 0) [0x4F, 0x67, 0x67, 0x53]).length = 64 + 4 ∧
    (add_header (fun _ => 0) [0x4F, 0x67, 0x67, 0x53]).drop 64 = [0x4F, 0x67, 0x67, 0x53] ∧
    (∀ y, ogg_is_valid y → remove_header y = some (y.drop 64)) :=
  ogg_round_trip (fun _ => 0) [0x4F, 0x67, 0x67, 0x53] (by decide)

/-! ### `arc.rs`: directory entries, name scrubbing, accessors -/

/-- `ArcFile` of `arc.rs`: 16-byte name, offset and size. -/
structure ArcFile where
  name : List Nat
  offset : Nat
  size : Nat
deriving DecidableEq, Repr

/-- The per-byte name scrub of `read_next_file_metadata_v1/v2`:
`if name[j] != 0 && (name[j] < 32 || name[j] > 127) { name[j] = b'_' }`. -/
def scrub_byte (b : Nat) : Nat :=
  if b ≠ 0 ∧ (b < 32 ∨ 127 < b) then 95 else b

/-- The scrub rule as claimed by the spec: every byte outside the
printable ASCII range `0x20..0x7E` is replaced with `'_'`, NUL bytes
are kept. -/
def scrub_byte_claimed (b : Nat) : Nat :=
  if b = 0 then 0 else if 32 ≤ b ∧ b ≤ 126 then b else 95

/-- The amended scrub rule: bytes below `0x20` or above `0x7F` (and
not NUL) are replaced with `'_'`; every byte in `0x20..=0x7F`
(including DEL, `0x7F`) is kept. -/
def scrub_byte_amended (b : Nat) : Nat :=
  if b = 0 then 0 else if 32 ≤ b ∧ b ≤ 127 then b else 95

/-- `Arc::read_next_file_metadata_v1` on the remaining bytes of the
file cursor: 16-byte name (scrubbed), `u32` LE offset, `u32` LE size,
8 bytes of padding skipped by seek (seeking past EOF succeeds). -/
def read_next_file_metadata_v1 (l : List Nat) : Option (ArcFile × List Nat) :=
  if 16 ≤ l.length then
    match read32At l 16, read32At l 20 with
    | some off, some sz => some (⟨(l.take 16).map scrub_byte, off, sz⟩, l.drop 32)
    | _, _ => none
  else none

/-- `Arc::read_next_file_metadata_v2`: 16-byte name (scrubbed), 80
bytes padding skipped, `u32` LE offset, `u32` LE size, 24 bytes
padding skipped. -/
def read_next_file_metadata_v2 (l : List Nat) : Option (ArcFile × List Nat) :=
  if 16 ≤ l.length then
    match read32At l 96, read32At l 100 with
    | some off, some sz => some (⟨(l.take 16).map scrub_byte, off, sz⟩, l.drop 128)
    | _, _ => none
  else none

theorem scrub_byte_eq_amended : ∀ b, scrub_byte b = scrub_byte_amended b := by
  intro b
  unfold scrub_byte scrub_byte_amended
  split_ifs <;> omega

/-- C7 (amended): on load, both archive versions replace every name
byte that is non-NUL and outside `0x20..=0x7F` with `'_'` and keep all
other bytes; in particular `0x7F` (DEL) is kept, so the replaced set
is the complement of `0x20..=0x7F`, not of the printable range
`0x20..=0x7E` as claimed. -/
theorem arc_name_scrub (l : List Nat) (f : ArcFile) (r : List Nat) :
    (read_next_file_metadata_v1 l = some (f, r) →
      f.name = (l.take 16).map scrub_byte_amended) ∧
    (read_next_file_metadata_v2 l = some (f, r) →
      f.name = (l.take 16).map scrub_byte_amended) := by
  have hmap : (l.take 16).map scrub_byte = (l.take 16).map scrub_byte_amended :=
    List.map_congr_left (fun b _ => scrub_byte_eq_amended b)
  constructor
  · intro h
    unfold read_next_file_metadata_v1 at h
    split_ifs at h
    cases h32 : read32At l 16 with
    | none => rw [h32] at h; simp at h
    | some off =>
      cases h36 : read32At l 20 with
      | none => rw [h32, h36] at h; simp at h
      | some sz =>
        rw [h32, h36] at h
        simp only [Option.some.injEq, Prod.mk.injEq] at h
        rw [← h.1, ← hmap]
  · intro h
    unfold read_next_file_metadata_v2 at h
    split_ifs at h
    cases h32 : read32At l 96 with
    | none => rw [h32] at h; simp at h
    | some off =>
      cases h36 : read32At l 100 with
      | none => rw [h32, h36] at h; simp at h
      | some sz =>
        rw [h32, h36] at h
        simp only [Option.some.injEq, Prod.mk.injEq] at h
        rw [← h.1, ← hmap]

/-- A 128-byte directory-entry image whose name field starts with the
DEL byte `0x7F` followed by NUL padding. -/
def arc_name_probe : List Nat := 127 :: List.replicate 127 0

/-- C7 counterexample: the claim says the name byte `0x7F` (outside
the printable range `0x20..0x7E`) is replaced with `'_'` on load; the
code keeps it, because the scrub condition is `name[j] > 127`. -/
theorem arc_name_scrub_counterexample :
    read_next_file_metadata_v1 arc_name_probe
        = some (⟨127 :: List.replicate 15 0, 0, 0⟩, List.replicate 96 0) ∧
    (arc_name_probe.take 16).map scrub_byte_claimed ≠ 127 :: List.replicate 15 0 := by
  constructor <;> decide

/-- Witness: the amended scrub rule at a concrete 128-byte entry whose
name field exercises NUL, control, printable, DEL and high bytes. -/
theorem arc_name_scrub_witness :
    (⟨(arc_name_probe.take 16).map scrub_byte, 0, 0⟩ : ArcFile).name
        = (arc_name_probe.take 16).map scrub_byte_amended ∧
    (⟨(arc_name_probe.take 16).map scrub_byte, 0, 0⟩ : ArcFile).name
        = (arc_name_probe.take 16).map scrub_byte_amended :=
  ⟨(arc_name_scrub arc_name_probe ⟨(arc_name_probe.take 16).map scrub_byte, 0, 0⟩
      (List.replicate 96 0)).1 (by decide),
   (arc_name_scrub (arc_name_probe ++ List.replicate 0 0)
      ⟨(arc_name_probe.take 16).map scrub_byte, 0, 0⟩
      (List.replicate 0 0)).2 (by decide)⟩

/-- Continuation byte test of the UTF-8 validity check that
`std::str::from_utf8` performs. -/
def utf8_cont (c : Nat) : Bool := decide (0x80 ≤ c ∧ c ≤ 0xBF)

/-- Second-byte range for three-byte UTF-8 sequences. -/
def utf8_e_snd (b c : Nat) : Bool :=
  if b = 0xE0 then decide (0xA0 ≤ c ∧ c ≤ 0xBF)
  else if b = 0xED then decide (0x80 ≤ c ∧ c ≤ 0x9F)
  else utf8_cont c

/-- Second-byte range for four-byte UTF-8 sequences. -/
def utf8_f_snd (b c : Nat) : Bool :=
  if b = 0xF0 then decide (0x90 ≤ c ∧ c ≤ 0xBF)
  else if b = 0xF4 then decide (0x80 ≤ c ∧ c ≤ 0x8F)
  else utf8_cont c

/-- UTF-8 validity (RFC 3629), the check done by
`std::str::from_utf8` inside `Arc::get_file_name`. -/
def utf8_valid : List Nat → Bool
  | [] => true
  | b :: rest =>
    if b < 0x80 then utf8_valid rest
    else if b < 0xC2 then false
    else if b ≤ 0xDF then
      match rest with
      | c1 :: r => utf8_cont c1 && utf8_valid r
      | [] => false
    else if b ≤ 0xEF then
      match rest with
      | c1 :: c2 :: r => utf8_e_snd b c1 && utf8_cont c2 && utf8_valid r
      | _ => false
    else if b ≤ 0xF4 then
      match rest with
      | c1 :: c2 :: c3 :: r =>
        utf8_f_snd b c1 && utf8_cont c2 && utf8_cont c3 && utf8_valid r
      | _ => false
    else false

/-- The `Arc` handle of `arc.rs`: the opened file's bytes, the cached
data-region base position, the declared entry count and the cached
directory. -/
structure ArcState where
  fileBytes : List Nat
  dataPos : Nat
  count : Nat
  files : List ArcFile
deriving DecidableEq, Repr

/-- `Arc::get_file_data`: `None` when `idx >= self.count`; otherwise
seek to `data + offset` and `read_exact` `size` bytes (`None` if the
file is too short).  `none` from a missing directory slot models the
Rust index panic. -/
def get_file_data (a : ArcState) (idx : Nat) : Option (List Nat) :=
  if a.count ≤ idx then none
  else
    match a.files.get? idx with
    | none => none
    | some fi =>
      if a.dataPos + fi.offset + fi.size ≤ a.fileBytes.length then
        some ((a.fileBytes.drop (a.dataPos + fi.offset)).take fi.size)
      else none

/-- `Arc::get_file_size`: returns `0` when `idx >= self.count`,
otherwise the cached size (`none` models the index panic). -/
def get_file_size (a : ArcState) (idx : Nat) : Option Nat :=
  if a.count ≤ idx then some 0
  else (a.files.get? idx).map (fun fi => fi.size)

/-- `Arc::get_file_name`: returns `""` when `idx >= self.count`;
otherwise the name bytes up to the first NUL, decoded as UTF-8 with
`""` on invalid encodings (`unwrap_or("")`). -/
def get_file_name (a : ArcState) (idx : Nat) : Option (List Nat) :=
  if a.count ≤ idx then some []
  else
    match a.files.get? idx with
    | none => none
    | some fi =>
      let len := fi.name.findIdx (fun b => b = 0)
      let pre := fi.name.take len
      some (if utf8_valid pre then pre else [])

/-- C9 (what the code actually does at an out-of-range index): for
every `idx ≥ count`, `get_file_data` returns `Option::None`,
`get_file_size` returns the value `0` and `get_file_name` returns the
empty string — plain sentinel values, not an `IndexOutOfBounds`
error (the accessors of `src/arc.rs` do not return `ArcResult` at
all, although `error.rs` defines `IndexOutOfBounds` and `main.rs`
calls `.map_err` on these accessors). -/
theorem arc_accessors_oob (a : ArcState) (idx : Nat) (h : a.count ≤ idx) :
    get_file_data a idx = none ∧
    get_file_size a idx = some 0 ∧
    get_file_name a idx = some [] := by
  unfold get_file_data get_file_size get_file_name
  rw [if_pos h, if_pos h, if_pos h]
  exact ⟨rfl, rfl, rfl⟩

/-- Witness: the failing input — a one-entry archive indexed at 1. -/
theorem arc_accessors_oob_witness :
    get_file_data ⟨[1, 2, 3], 0, 1, [⟨List.replicate 16 0, 0, 3⟩]⟩ 1 = none ∧
    get_file_size ⟨[1, 2, 3], 0, 1, [⟨List.replicate 16 0, 0, 3⟩]⟩ 1 = some 0 ∧
    get_file_name ⟨[1, 2, 3], 0, 1, [⟨List.replicate 16 0, 0, 3⟩]⟩ 1 = some [] :=
  arc_accessors_oob ⟨[1, 2, 3], 0, 1, [⟨List.replicate 16 0, 0, 3⟩]⟩ 1 (by decide)

/-! ### `cbg.rs`: varint readers -/

/-- Loop of `cbg::read_variable` (v1 path).  `v` and `shift` are the
running accumulator and shift; each consumed byte contributes its low
seven bits (`v |= ((c & 0x7F) as u32) << shift`, a wrapping `u32`
shift), a clear high bit returns `v`, and once `shift` reaches 32 the
loop breaks and `v` is returned as well — there is no error path. -/
def read_variable_go : List Nat → Nat → Nat → Nat × List Nat
  | [], v, _ => (v, [])
  | c :: rest, v, shift =>
    let v2 := v ||| ((c &&& 0x7F) <<< shift % 4294967296)
    if c &&& 0x80 = 0 then (v2, rest)
    else if 32 ≤ shift + 7 then (v2, rest)
    else read_variable_go rest v2 (shift + 7)

/-- `cbg::read_variable`: little-endian base-128 varint, total. -/
def read_variable (l : List Nat) : Nat × List Nat := read_variable_go l 0 0

/-- Loop of `cbg::read_integer` (v2 path, cursor based).  `-1`
(pattern `0xFFFFFFFF`) is returned on end of input and once
`code_length` has reached 32; values are accumulated as `i32` bit
patterns. -/
def read_integer_go : List Nat → Nat → Nat → Nat × List Nat
  | [], _, _ => (4294967295, [])
  | c :: rest, v, code_length =>
    if 32 ≤ code_length then (4294967295, rest)
    else
      let v2 := v ||| ((c &&& 0x7F) <<< code_length % 4294967296)
      if c &&& 0x80 = 0 then (v2, rest)
      else read_integer_go rest v2 (code_length + 7)

/-- `cbg::read_integer`. -/
def read_integer (l : List Nat) : Nat × List Nat := read_integer_go l 0 0

/-- `cbg::read_weight_table_v2`: reads `count` varints with
`read_integer`; a `-1` result signals `InvalidFormat`. -/
def read_weight_table_v2 : Nat → List Nat → ArcResult (List Nat × List Nat)
  | 0, l => .ok ([], l)
  | n+1, l =>
    let p := read_integer l
    if p.1 = 4294967295 then .error .InvalidFormat
    else
      match read_weight_table_v2 n p.2 with
      | .ok (ws, l3) => .ok (p.1 :: ws, l3)
      | .error e => .error e

/-- C4 counterexample: on five continuation bytes, `read_variable`
does not reject — it stops after the fifth byte and returns the
accumulated value `0`, leaving the remaining input unread.  The claim
that both varint readers signal `InvalidFormat` on over-long input is
therefore false for `read_variable`. -/
theorem varint_overlong_counterexample :
    read_variable [0x80, 0x80, 0x80, 0x80, 0x80, 0x01] = (0, [0x01]) := by
  decide

/-- C4 (amended): for every input whose varint does not terminate
within 5 bytes, `read_integer` returns `-1` and the enclosing
`read_weight_table_v2` signals `InvalidFormat`; `read_variable`
instead consumes exactly 5 bytes and returns the value accumulated
from them, with no error. -/
theorem varint_overlong (l : List Nat) (h5 : 5 ≤ l.length)
    (hc : ∀ b ∈ l.take 5, b &&& 0x80 ≠ 0) :
    (read_integer l).1 = 4294967295 ∧
    (∀ k, read_weight_table_v2 (k + 1) l = .error .InvalidFormat) ∧
    read_variable l = ((read_variable (l.take 5)).1, l.drop 5) := by
  match l, h5 with
  | a :: b :: c :: d :: e :: rest, _ =>
    have ha : a &&& 0x80 ≠ 0 := hc a (by simp)
    have hb : b &&& 0x80 ≠ 0 := hc b (by simp)
    have hcc : c &&& 0x80 ≠ 0 := hc c (by simp)
    have hd : d &&& 0x80 ≠ 0 := hc d (by simp)
    have he : e &&& 0x80 ≠ 0 := hc e (by simp)
    have hint : (read_integer (a :: b :: c :: d :: e :: rest)).1 = 4294967295 := by
      unfold read_integer
      simp only [read_integer_go, if_neg ha, if_neg hb, if_neg hcc, if_neg hd, if_neg he]
      norm_num
      cases rest with
      | nil => simp [read_integer_go]
      | cons f r2 => simp [read_integer_go]
    refine ⟨hint, ?_, ?_⟩
    · intro k
      unfold read_weight_table_v2
      rw [if_pos hint]
    · unfold read_variable
      simp only [List.take_succ_cons, List.take_zero, List.drop_succ_cons, List.drop_zero]
      simp only [read_variable_go, if_neg ha, if_neg hb, if_neg hcc, if_neg hd, if_neg he]
      norm_num

/-- Witness: the over-long varint `80 80 80 80 80 07`. -/
theorem varint_overlong_witness :
    (read_integer [0x80, 0x80, 0x80, 0x80, 0x80, 0x07]).1 = 4294967295 ∧
    (∀ k, read_weight_table_v2 (k + 1) [0x80, 0x80, 0x80, 0x80, 0x80, 0x07]
        = .error .InvalidFormat) ∧
    read_variable [0x80, 0x80, 0x80, 0x80, 0x80, 0x07]
        = ((read_variable ([0x80, 0x80, 0x80, 0x80, 0x80, 0x07].take 5)).1,
           [0x80, 0x80, 0x80, 0x80, 0x80, 0x07].drop 5) :=
  varint_overlong [0x80, 0x80, 0x80, 0x80, 0x80, 0x07] (by decide) (by decide)

/-! ### `cbg.rs`: MSB-first bit stream -/

/-- `MsbBitStream` of `cbg.rs`: byte data, read position, one-byte
cache and the number of cached bits still unread. -/
structure MsbBitStream where
  data : List Nat
  pos : Nat
  cache : Nat
  cacheSize : Nat
deriving DecidableEq, Repr

/-- `MsbBitStream::get_next_bit`: refills the cache from the next
byte when empty (signalling `InvalidFormat` at end of stream) and
returns the most significant unread bit. -/
def get_next_bit (s : MsbBitStream) : ArcResult (Nat × MsbBitStream) :=
  if s.cacheSize = 0 then
    if s.data.length ≤ s.pos then .error .InvalidFormat
    else
      let c := s.data.getD s.pos 0
      .ok ((c >>> 7) &&& 1, ⟨s.data, s.pos + 1, c, 7⟩)
  else
    .ok ((s.cache >>> (s.cacheSize - 1)) &&& 1, ⟨s.data, s.pos, s.cache, s.cacheSize - 1⟩)

/-- Loop of `MsbBitStream::get_bits`.  Each iteration consumes
`take = min remaining cache_size` bits; when the data is exhausted
with bits still missing the code returns `Ok(v << remaining)` — the
partial value zero-padded on the right — rather than an error.  The
fuel argument exceeds the iteration count whenever it is at least
`remaining + 1`, as every iteration consumes at least one bit. -/
def get_bits_go : Nat → Nat → Nat → MsbBitStream → ArcResult (Nat × MsbBitStream)
  | 0, _, _, _ => .error .Panic
  | _+1, v, 0, s => .ok (v, s)
  | fuel+1, v, remaining+1, s =>
    if s.cacheSize = 0 then
      if s.data.length ≤ s.pos then
        if 32 ≤ remaining + 1 then .error .Panic
        else .ok ((v <<< (remaining + 1)) % 4294967296, s)
      else
        let c := s.data.getD s.pos 0
        let take := min (remaining + 1) 8
        let bits := (c >>> (8 - take)) &&& (2 ^ take - 1)
        get_bits_go fuel ((v <<< take) % 4294967296 ||| bits)
          (remaining + 1 - take) ⟨s.data, s.pos + 1, c, 8 - take⟩
    else
      let take := min (remaining + 1) s.cacheSize
      let bits := (s.cache >>> (s.cacheSize - take)) &&& (2 ^ take - 1)
      get_bits_go fuel ((v <<< take) % 4294967296 ||| bits)
        (remaining + 1 - take) ⟨s.data, s.pos, s.cache, s.cacheSize - take⟩

/-- `MsbBitStream::get_bits`. -/
def get_bits (count : Nat) (s : MsbBitStream) : ArcResult (Nat × MsbBitStream) :=
  get_bits_go (count + 1) 0 count s

/-- C5 counterexample: `get_bits 3` on an exhausted stream returns
`Ok(0)` — a zero-padded value — instead of failing the enclosing
decode as the claim states. -/
theorem msb_get_bits_eos_counterexample :
    get_bits 3 ⟨[], 0, 0, 0⟩ = .ok (0, ⟨[], 0, 0, 0⟩) := by
  decide

/-- C5 (amended): when the byte data is exhausted, `get_next_bit` on
an empty cache fails with `InvalidFormat`, but `get_bits n` with only
`cache_size < n` bits remaining succeeds, returning the remaining
cached bits left-shifted by the deficit (zero padding), with the
cache emptied. -/
theorem msb_bitstream_eos (s : MsbBitStream) (n : Nat)
    (hpos : s.data.length ≤ s.pos) (hlt : s.cacheSize < n) (hn : n < 32) :
    (s.cacheSize = 0 → get_next_bit s = .error .InvalidFormat) ∧
    get_bits n s = .ok (((s.cache &&& (2 ^ s.cacheSize - 1)) <<< (n - s.cacheSize))
        % 4294967296, ⟨s.data, s.pos, s.cache, 0⟩) := by
  obtain ⟨data, pos, cache, k⟩ := s
  simp only at hpos hlt ⊢
  constructor
  · intro hk
    subst hk
    unfold get_next_bit
    simp [hpos]
  · match n, hlt with
    | m + 1, _ =>
      by_cases hk : k = 0
      · subst hk
        unfold get_bits
        simp only [get_bits_go, if_pos rfl, if_pos hpos, if_neg (by omega : ¬ 32 ≤ m + 1)]
        simp
      · have h1 : min (m + 1) k = k := by omega
        obtain ⟨r, hrr⟩ : ∃ r, m + 1 - k = r + 1 := ⟨m - k, by omega⟩
        unfold get_bits
        simp only [get_bits_go, if_neg hk, h1, Nat.sub_self, Nat.shiftRight_zero,
          Nat.zero_shiftLeft, Nat.zero_mod, Nat.zero_or, hrr]
        simp only [get_bits_go, if_pos rfl, if_pos hpos,
          if_neg (by omega : ¬ 32 ≤ r + 1)]
        simp

/-- Witness: a stream with 2 cached bits asked for 7 bits. -/
theorem msb_bitstream_eos_witness :
    ((⟨[], 0, 5, 2⟩ : MsbBitStream).cacheSize = 0 →
      get_next_bit ⟨[], 0, 5, 2⟩ = .error .InvalidFormat) ∧
    get_bits 7 ⟨[], 0, 5, 2⟩
        = .ok ((((5 : Nat) &&& (2 ^ 2 - 1)) <<< (7 - 2)) % 4294967296, ⟨[], 0, 5, 0⟩) :=
  msb_bitstream_eos ⟨[], 0, 5, 2⟩ 7 (by decide) (by decide) (by decide)

/-! ### `bse.rs`: descrambler and the pipeline handoff of `main.rs` -/

/-- Arithmetic right shift of a 32-bit two's-complement pattern. -/
def ashr32 (a k : Nat) : Nat :=
  if a < 2147483648 then a / 2 ^ k
  else a / 2 ^ k + (2 ^ k - 1) * 2 ^ (32 - k)

/-- `bse_rand` of `bse.rs` on the seed's 32-bit pattern:
`tmp = (((seed * 257) >> 8) + seed * 97 + 23) ^ -1496474763;
seed = ((tmp >> 16) & 65535) | (tmp << 16); return seed & 32767`.
The multiplications and additions wrap (two's complement, as the
shipped release build computes and as the spec prescribes); the XOR
constant `-1496474763` has pattern `0xA7A4A2B5 = 2798492533`. -/
def bse_rand (seed : Nat) : Nat × Nat :=
  let t1 := seed * 257 % 4294967296
  let t3 := (ashr32 t1 8 + seed * 97 + 23) % 4294967296
  let tmp := t3 ^^^ 2798492533
  let s2 := (ashr32 tmp 16 &&& 65535) ||| (tmp * 65536 % 4294967296)
  (s2, s2 &&& 32767)

/-- Rust `(r << s) | (r >> (8 - s))` truncated to `u8`. -/
def rot8l (r s : Nat) : Nat := ((r <<< s) ||| (r >>> (8 - s))) &&& 255

/-- Rust `(r >> s) | (r << (8 - s))` truncated to `u8`. -/
def rot8r (r s : Nat) : Nat := ((r >>> s) ||| (r <<< (8 - s))) &&& 255

/-- `bse::is_valid`: `size ≥ 80` and the first seven bytes are
`"BSE 1.0"`. -/
def bse_is_valid (data : List Nat) (size : Nat) : Bool :=
  80 ≤ size && decide (data.take 7 = [66, 83, 69, 32, 49, 46, 48])

/-- The linear probe `while flags[i] != 0 { i = (i + 1) & 0x3F }`. -/
def bse_probe : Nat → List Nat → Nat → ArcResult Nat
  | 0, _, _ => .error .Panic
  | f+1, flags, i => do
    let fl ← getB flags i
    if fl ≠ 0 then bse_probe f flags ((i + 1) &&& 63) else .ok i

/-- One of the 64 descramble rounds of `bse::decrypt`: four PRNG
draws select the target slot `i`, the rotation amount `s`, the
direction `k` and the subtrahend `r`; the byte at `data[i + 16]`
becomes `rotate((data[i + 16] - r) & 255, s)`. -/
def bse_round (data flags : List Nat) (seed : Nat) :
    ArcResult (List Nat × List Nat × Nat) := do
  let p1 := bse_rand seed
  let i ← bse_probe 65 flags (p1.2 &&& 63)
  let p2 := bse_rand p1.1
  let s := p2.2 &&& 7
  let p3 := bse_rand p2.1
  let p4 := bse_rand p3.1
  let b ← getB data (i + 16)
  let rr := ((b &&& 255) + 32768 - p4.2) % 256
  let nb := if p3.2 &&& 1 ≠ 0 then rot8l rr s else rot8r rr s
  let data2 ← setB data (i + 16) nb
  let flags2 ← setB flags i 1
  .ok (data2, flags2, p4.1)

/-- The 64-round descramble loop. -/
def bse_rounds : Nat → List Nat → List Nat → Nat → ArcResult (List Nat)
  | 0, data, _, _ => .ok data
  | n+1, data, flags, seed => do
    let (d2, f2, s2) ← bse_round data flags seed
    bse_rounds n d2 f2 s2

/-- Wrapping byte sum of a block (`sum_data.wrapping_add`). -/
def sum8 (l : List Nat) : Nat := l.foldl (fun a b => (a + b % 256) % 256) 0

/-- Byte XOR of a block (`xor_data ^= ...`). -/
def xor8 (l : List Nat) : Nat := l.foldl (fun a b => a ^^^ b % 256) 0

/-- `bse::decrypt`: reads the validation prelude (`u16` flag dropped,
sum check, xor check, `u32` seed at offsets 8..16), descrambles
`data[16..80]` in place over 64 rounds, then verifies the byte sum and
XOR of the descrambled block against the declared checksums.  Returns
the whole mutated buffer on success. -/
def bse_decrypt (data : List Nat) : ArcResult (List Nat) :=
  if data.length < 16 then .error .BseDecryptError
  else
    match data.get? 10, data.get? 11, read32At data 12 with
    | some sumCheck, some xorCheck, some seed =>
      match bse_rounds 64 data (List.replicate 64 0) seed with
      | .ok d =>
        let block := (d.drop 16).take 64
        if sum8 block = sumCheck ∧ xor8 block = xorCheck then .ok d
        else .error .BseDecryptError
      | .error e => .error e
    | _, _, _ => .error .Panic

/-- The BSE branch of `main.rs::unpack_file`: on a BSE-valid blob the
buffer is descrambled (`bse::decrypt(&mut bse_data)?`), but the
payload handed to the codec detectors is then reassigned from the
ORIGINAL input: `bse_data = data[16..].to_vec()`. -/
def unpack_payload (data : List Nat) (filesize : Nat) : ArcResult (List Nat) :=
  if bse_is_valid data filesize then
    match bse_decrypt data with
    | .ok _ => .ok (data.drop 16)
    | .error e => .error e
  else .ok data

/-- Builder for the C1 failing input: runs the PRNG schedule of the
descrambler and stores, in each selected slot, exactly the byte that
the descrambler will reduce to zero (`r & 255`), producing a
scrambled block whose descramble is 64 zero bytes. -/
def bse_scramble_go : Nat → List Nat → List Nat → Nat →
    ArcResult (List Nat × List Nat × Nat)
  | 0, out, flags, seed => .ok (out, flags, seed)
  | n+1, out, flags, seed => do
    let p1 := bse_rand seed
    let i ← bse_probe 65 flags (p1.2 &&& 63)
    let p2 := bse_rand p1.1
    let p3 := bse_rand p2.1
    let p4 := bse_rand p3.1
    let out2 ← setB out i (p4.2 &&& 255)
    let flags2 ← setB flags i 1
    bse_scramble_go n out2 flags2 p4.1

/-- The 64 scrambled bytes whose descramble (seed 0) is all zeros. -/
def bse_scrambled_block : List Nat :=
  match bse_scramble_go 64 (List.replicate 64 0) (List.replicate 64 0) 0 with
  | .ok (o, _, _) => o
  | .error _ => []

/-- A complete 80-byte BSE blob: magic `"BSE 1.0\0"`, flag `0x100`,
sum check 0, xor check 0, seed 0 and the scrambled block. -/
def bse_witness_input : List Nat :=
  [66, 83, 69, 32, 49, 46, 48, 0] ++ [0, 1] ++ [0, 0] ++ [0, 0, 0, 0] ++
    bse_scrambled_block

/-- C1 (what the code actually does): on the concrete BSE blob
`bse_witness_input`, `bse::decrypt` succeeds and its descrambled
buffer ends in 64 zero bytes, yet `unpack_file` hands the codec
detectors `data[16..]` of the ORIGINAL scrambled input, which differs
from the descrambled bytes from offset 16 on.  The spec (and the
claim) say the next stage receives the descrambled remainder; the
code discards the descrambled buffer (`bse_data = data[16..]`
overwrites the result of `bse::decrypt`). -/
theorem bse_handoff_divergence :
    bse_decrypt bse_witness_input
        = .ok (bse_witness_input.take 16 ++ List.replicate 64 0) ∧
    unpack_payload bse_witness_input 80 = .ok (bse_witness_input.drop 16) ∧
    (bse_witness_input.take 16 ++ List.replicate 64 0).drop 16
        ≠ bse_witness_input.drop 16 := by
  refine ⟨by decide, by decide, by decide⟩

/-! ### `dsc.rs`: Huffman + LZ decoder -/

/-- `NodeDSC` of `dsc.rs`. -/
structure NodeDSC where
  has_childs : Nat
  leaf_value : Nat
  childs0 : Nat
  childs1 : Nat
deriving DecidableEq, Repr

/-- Generic bounds-checked list read (Rust index panic as error). -/
def getE {α : Type} (l : List α) (i : Nat) : ArcResult α :=
  match l.get? i with
  | some x => .ok x
  | none => .error .Panic

/-- Generic bounds-checked list write. -/
def setE {α : Type} (l : List α) (i : Nat) (x : α) : ArcResult (List α) :=
  if i < l.length then .ok (l.set i x) else .error .Panic

/-- Stage-1 table build of `dsc::decrypt`: subtract the keystream
byte from each of the 512 bytes following the header and collect the
non-zero results as records `(value << 16) + symbol`. -/
def dsc_buffer_go (crypted : List Nat) : Nat → Nat → Nat → List Nat →
    ArcResult (List Nat)
  | _, _, 0, acc => .ok acc
  | hash, n, r+1, acc =>
    match getB crypted (n + 32) with
    | .error e => .error e
    | .ok b =>
      match hash_update hash with
      | (h2, k) =>
        match (b % 256 + 256 - k % 256) % 256 with
        | 0 => dsc_buffer_go crypted h2 (n + 1) r acc
        | v+1 => dsc_buffer_go crypted h2 (n + 1) r (acc ++ [((v + 1) <<< 16) + n])

/-- Stable insertion into an ascending list; `dsc_sort` models Rust's
ascending `buffer.sort()`. -/
def insertLe (x : Nat) : List Nat → List Nat
  | [] => [x]
  | y :: ys => if x ≤ y then x :: y :: ys else y :: insertLe x ys

/-- Ascending sort of the record table. -/
def dsc_sort : List Nat → List Nat
  | [] => []
  | x :: xs => insertLe x (dsc_sort xs)

/-- Leaf-filling phase of one tree level: pop every leading record
whose length field equals the current level `nn` and turn the node at
`vector0[v13]` into a leaf with `leaf_value = record & 0x1FF`.
Returns the remaining records, the updated nodes, the advanced `v13`
and the group count. -/
def dsc_leaves_phase : List Nat → List NodeDSC → List Nat → Nat → Nat → Nat →
    ArcResult (List Nat × List NodeDSC × Nat × Nat)
  | [], nodes, _, v13, _, group => .ok ([], nodes, v13, group)
  | rec :: rest, nodes, vector0, v13, nn, group =>
    if (rec >>> 16) &&& 0xFFFF = nn then do
      let j ← getB vector0 v13
      let nd ← getE nodes j
      let nodes2 ← setE nodes j { nd with has_childs := 0, leaf_value := rec &&& 0x1FF }
      dsc_leaves_phase rest nodes2 vector0 (v13 + 1) nn (group + 1)
    else .ok (rec :: rest, nodes, v13, group)

/-- Internal-node phase of one tree level: each remaining slot at
this level becomes an internal node whose two children are allocated
contiguously in the opposite bank (`vector0[vp] = value_set`). -/
def dsc_internal_phase : Nat → List NodeDSC → List Nat → Nat → Nat → Nat →
    ArcResult (List NodeDSC × List Nat × Nat)
  | 0, nodes, vector0, _, _, vs => .ok (nodes, vector0, vs)
  | c+1, nodes, vector0, v13, vp, vs => do
    let j ← getB vector0 v13
    let nd ← getE nodes j
    let vector0a ← setB vector0 vp vs
    let vector0b ← setB vector0a (vp + 1) (vs + 1)
    let nodes2 ← setE nodes j { nd with has_childs := 1, childs0 := vs, childs1 := vs + 1 }
    dsc_internal_phase c nodes2 vector0b (v13 + 1) (vp + 2) (vs + 2)

/-- The level loop of the DSC tree construction (`nn` advances by one
per level, banks toggled via XOR `0x200`, `dec0` is the signed count
of open slots).  Record lengths are byte values, so 300 levels of
fuel always suffice. -/
def dsc_levels : Nat → List Nat → List NodeDSC → List Nat → Nat → Nat → Nat → Int → Nat →
    ArcResult (List NodeDSC)
  | 0, _, _, _, _, _, _, _, _ => .error .Panic
  | f+1, buf, nodes, vector0, v13, nn, toggle, dec0, vs =>
    match buf with
    | [] => .ok nodes
    | rec :: rest => do
      let r ← dsc_leaves_phase (rec :: rest) nodes vector0 v13 nn 0
      let (buf2, nodes2, v13b, group) := r
      let v18 : Int := 2 * (dec0 - (group : Int))
      let r2 ←
        if (group : Int) < dec0 then
          dsc_internal_phase (dec0 - (group : Int)).toNat nodes2 vector0 v13b toggle vs
        else .ok (nodes2, vector0, vs)
      let (nodes3, vector0c, vs2) := r2
      dsc_levels f buf2 nodes3 vector0c toggle (nn + 1) (toggle ^^^ 512) v18 vs2

/-- Result of the bit-stream walk to a leaf: leaf node index and the
updated stream state `(src, bits, nbits)`. -/
structure WalkOut where
  nentry : Nat
  src : Nat
  bits : Nat
  nbits : Nat
deriving DecidableEq, Repr

/-- Tree walk of the decompression loop: descend from node 0 along
the MSB-first bit stream until a node without children is reached,
refilling `bits` from `crypted[544 + src]` whenever `nbits = 0`. -/
def dsc_walk : Nat → List NodeDSC → List Nat → Nat → Nat → Nat → Nat →
    ArcResult WalkOut
  | 0, _, _, _, _, _, _ => .error .Panic
  | f+1, nodes, crypted, nentry, src, bits, nbits => do
    let nd ← getE nodes nentry
    if nd.has_childs ≠ 0 then
      if nbits = 0 then do
        let b ← getB crypted (544 + src)
        let bit := ((b % 256) >>> 7) &&& 1
        dsc_walk f nodes crypted (if bit = 0 then nd.childs0 else nd.childs1)
          (src + 1) (((b % 256) <<< 1) &&& 255) 7
      else
        let bit := (bits >>> 7) &&& 1
        dsc_walk f nodes crypted (if bit = 0 then nd.childs0 else nd.childs1)
          src ((bits <<< 1) &&& 255) (nbits - 1)
    else .ok ⟨nentry, src, bits, nbits⟩

/-- The byte loads that complete a 12-bit match descriptor:
`cvalue = next_byte + (cvalue << 8)` (wrapping `u32`). -/
def dsc_read12_bytes : Nat → List Nat → Nat → Nat → Nat → ArcResult (Nat × Nat × Nat)
  | 0, _, src, cv, nb2 => .ok (src, cv, nb2)
  | c+1, crypted, src, cv, nb2 => do
    let b ← getB crypted (544 + src)
    dsc_read12_bytes c crypted (src + 1) ((b % 256 + cv * 256) % 4294967296) (nb2 + 8)

/-- Output of the copy loop / of the whole decompression loop. -/
structure CopyOut where
  data : List Nat
  dst : Nat
  copies : List (Nat × Nat)
  writes : List Nat
deriving DecidableEq, Repr

/-- The overlap-allowed in-buffer copy of a match token; every copied
byte is recorded in `copies` as the pair (read index, write index)
and in `writes` as the write index. -/
def dsc_copy : Nat → Nat → Nat → List Nat → List (Nat × Nat) → List Nat →
    ArcResult CopyOut
  | 0, _, dst, data, cs, ws => .ok ⟨data, dst, cs, ws⟩
  | c+1, ring, dst, data, cs, ws => do
    let tmp ← getB data ring
    let data2 ← setB data dst tmp
    dsc_copy c (ring + 1) (dst + 1) data2 (cs ++ [(ring, dst)]) (ws ++ [dst])

/-- State of the decompression loop. -/
structure DscState where
  src : Nat
  dst : Nat
  bits : Nat
  nbits : Nat
  data : List Nat
  copies : List (Nat × Nat)
  writes : List Nat
deriving DecidableEq, Repr

/-- The decompression loop of `dsc::decrypt`
(`while src_ptr < src_end && dst_ptr < dst_end`).  A leaf with high
bit set in its 9-bit value is a match token: the 12-bit descriptor is
completed from the stream, `offset = (cvalue >> (nbits2 - 12)) + 2`,
and `count = (info & 0xFF) + 2` bytes are copied forward from
`dst - offset` (checked subtraction: an offset beyond `dst` is the
Rust `u32` underflow panic).  Any other leaf emits its low byte.
`cvalue`'s additions wrap as `u32` (unreachable for byte inputs). -/
def dsc_loop : Nat → List NodeDSC → List Nat → Nat → Nat → DscState → ArcResult DscState
  | 0, _, _, _, _, _ => .error .Panic
  | f+1, nodes, crypted, srcEnd, dstEnd, st =>
    if st.src < srcEnd ∧ st.dst < dstEnd then do
      let w ← dsc_walk 1025 nodes crypted 0 st.src st.bits st.nbits
      let nd ← getE nodes w.nentry
      let info := nd.leaf_value % 65536
      if (info >>> 8) &&& 255 = 1 then
        if 8 < w.nbits then .error .Panic
        else
          match (if w.nbits < 12 then
              dsc_read12_bytes (((11 - w.nbits) >>> 3) + 1) crypted w.src
                (w.bits >>> (8 - w.nbits)) w.nbits
            else .ok (w.src, w.bits >>> (8 - w.nbits), w.nbits)) with
          | .error e => .error e
          | .ok (src3, cv2, nb2) =>
            if nb2 < 12 then .error .Panic
            else
              if 8 < nb2 - 12 then .error .Panic
              else
                if st.dst < (cv2 >>> (nb2 - 12)) + 2 then .error .Panic
                else do
                  let co ← dsc_copy ((info &&& 255) + 2)
                    (st.dst - ((cv2 >>> (nb2 - 12)) + 2)) st.dst
                    st.data st.copies st.writes
                  dsc_loop f nodes crypted srcEnd dstEnd
                    ⟨src3, co.dst, (cv2 <<< (8 - (nb2 - 12))) &&& 255, nb2 - 12,
                      co.data, co.copies, co.writes⟩
      else do
        let data2 ← setB st.data st.dst (info &&& 255)
        dsc_loop f nodes crypted srcEnd dstEnd
          ⟨w.src, st.dst + 1, w.bits, w.nbits, data2, st.copies, st.writes ++ [st.dst]⟩
    else .ok st

/-- Result of `dsc::decrypt` instrumented with the final write cursor
and the read/write traces. -/
structure DscResult where
  data : List Nat
  size : Nat
  finalDst : Nat
  copies : List (Nat × Nat)
  writes : List Nat
deriving DecidableEq, Repr

/-- `dsc::decrypt(crypted, crypted_size)`: header reads at offsets
16 and 20 (`hash`, declared `size`), the 512-byte code-length table,
the bank-toggle tree construction, then the decompression loop into a
zero-initialised buffer of `size` bytes.  `crypted_size - 544` is the
checked `u32` subtraction computing `src_end`.  The fuel `size + 1`
bounds the loop exactly, as every iteration advances `dst` by at
least one. -/
def dsc_decrypt_full (crypted : List Nat) (crypted_size : Nat) : ArcResult DscResult :=
  if crypted.length < 32 then .error .Panic
  else
    match read32At crypted 16, read32At crypted 20 with
    | some hash0, some size =>
      match dsc_buffer_go crypted hash0 0 512 [] with
      | .error e => .error e
      | .ok buffer =>
        match dsc_levels 300 (dsc_sort buffer)
            (List.replicate 1024 ⟨0, 0, 0, 0⟩) (List.replicate 1024 0) 0 0 512 1 1 with
        | .error e => .error e
        | .ok nodes =>
          if crypted_size < 544 then .error .Panic
          else
            match dsc_loop (size + 1) nodes crypted (crypted_size - 544) size
                ⟨0, 0, 0, 0, List.replicate size 0, [], []⟩ with
            | .error e => .error e
            | .ok st => .ok ⟨st.data, size, st.dst, st.copies, st.writes⟩
    | _, _ => .error .Panic

/-- The pair returned by the Rust function. -/
def dsc_decrypt (crypted : List Nat) (crypted_size : Nat) :
    ArcResult (List Nat × Nat) :=
  match dsc_decrypt_full crypted crypted_size with
  | .ok r => .ok (r.data, r.size)
  | .error e => .error e

/-- The DSC code-length table for the C2/C10 witness: code length 1
for the literal symbol `0x41` and the match symbol `0x100`, stored
re-scrambled with the seed-0 keystream so that stage 1 of the decoder
recovers it (i.e. entry `n` is
`((if n = 0x41 or n = 0x100 then 1 else 0) + keystream(0)[n]) mod 256`). -/
def dsc_witness_table : List Nat :=
  [0, 90, 130, 230, 66, 136, 205, 187, 15, 164, 150, 44, 222, 243, 95, 60,
   80, 36, 97, 191, 215, 239, 209, 22, 161, 238, 117, 44, 203, 187, 104,
   177, 195, 75, 41, 150, 254, 139, 235, 201, 220, 57, 24, 50, 216, 4, 39,
   238, 244, 231, 159, 203, 100, 195, 108, 4, 122, 59, 98, 62, 209, 213, 15,
   194, 189, 79, 198, 253, 243, 62, 233, 53, 117, 237, 118, 141, 193, 116,
   212, 60, 58, 24, 224, 10, 214, 227, 51, 12, 10, 132, 183, 160, 243, 105,
   105, 171, 197, 27, 112, 18, 121, 217, 95, 119, 179, 120, 199, 53, 241,
   122, 1, 158, 250, 110, 58, 116, 134, 135, 191, 166, 42, 128, 139, 76,
   135, 175, 14, 228, 180, 104, 64, 207, 232, 149, 230, 7, 108, 147, 36, 34,
   192, 79, 68, 140, 12, 161, 197, 1, 203, 232, 168, 73, 179, 231, 246, 56,
   231, 224, 150, 229, 96, 239, 77, 42, 152, 169, 22, 92, 121, 245, 165, 76,
   134, 42, 54, 126, 73, 105, 155, 168, 252, 61, 133, 111, 123, 114, 18, 93,
   105, 51, 151, 38, 162, 103, 176, 28, 225, 77, 134, 239, 179, 86, 97, 170,
   155, 67, 110, 235, 135, 127, 209, 99, 115, 191, 238, 142, 92, 216, 245,
   179, 103, 224, 172, 30, 82, 137, 129, 157, 28, 186, 207, 56, 240, 110,
   112, 54, 88, 210, 133, 77, 159, 154, 130, 40, 135, 164, 124, 31, 44, 209,
   183, 50, 56, 32, 107, 70, 74, 11, 215, 164, 159, 38, 137, 175, 10, 246,
   235, 230, 19, 16, 18, 26, 106, 115, 195, 240, 144, 39, 199, 153, 197, 22,
   113, 209, 52, 41, 109, 22, 93, 167, 202, 43, 195, 204, 75, 204, 216, 166,
   234, 179, 37, 52, 174, 203, 190, 193, 175, 179, 229, 125, 102, 118, 254,
   93, 58, 137, 179, 54, 73, 6, 104, 21, 116, 40, 225, 225, 173, 7, 50, 52,
   133, 148, 231, 118, 240, 215, 117, 60, 92, 104, 224, 224, 242, 45, 174,
   96, 43, 82, 13, 124, 151, 142, 64, 12, 234, 148, 79, 159, 72, 215, 239,
   90, 210, 131, 175, 15, 113, 184, 101, 156, 226, 9, 216, 135, 3, 53, 175,
   215, 92, 36, 154, 53, 241, 37, 191, 68, 71, 103, 103, 61, 180, 181, 233,
   207, 236, 118, 215, 54, 201, 228, 104, 154, 90, 140, 38, 170, 48, 7, 216,
   121, 228, 247, 178, 152, 237, 68, 187, 117, 160, 152, 128, 244, 136, 25,
   247, 75, 233, 102, 182, 35, 143, 212, 85, 237, 220, 234, 32, 129, 17, 27,
   1, 254, 220, 194, 173, 222, 35, 99, 14, 88, 16, 33, 241, 250, 93, 123,
   241, 135, 225, 75, 163, 15, 92, 0, 3, 77, 127, 27, 31, 69, 63, 232, 2,
   30, 91, 127, 227, 61, 44, 250, 143, 164, 173, 248, 20, 137, 202, 82, 175,
   58, 237, 29, 248, 49, 199, 224, 76, 115, 92, 23, 123, 46, 82, 232, 179,
   146, 122, 36, 173, 239, 160, 129]

/-- A complete 546-byte DSC blob (declared size 4): magic, seed 0,
size 4, the table above and the two stream bytes `20 00` that decode
to literal `A`, literal `A`, then a match of length 2 at offset 2. -/
def dsc_witness_input : List Nat :=
  [68, 83, 67, 32, 70, 79, 82, 77, 65, 84, 32, 49, 46, 48, 48, 0] ++
  le32 0 ++ le32 4 ++ le32 0 ++ le32 0 ++ dsc_witness_table ++ [0x20, 0x00]


theorem get?_some_lt {α : Type} {l : List α} {i : Nat} {x : α}
    (h : l.get? i = some x) : i < l.length :=
  (List.get?_eq_some.mp h).1

/-- Specification of the match-copy loop: the buffer keeps its
length, the cursor advances by exactly `count` staying inside the
buffer, bytes outside the written window are untouched, and every
recorded copy pair reads strictly below its write index, which is in
bounds. -/
theorem dsc_copy_spec : ∀ (count ring dst : Nat) (data : List Nat)
    (cs : List (Nat × Nat)) (ws : List Nat) (out : CopyOut),
    ring < dst →
    dsc_copy count ring dst data cs ws = .ok out →
    out.data.length = data.length ∧
    out.dst = dst + count ∧
    (0 < count → dst + count ≤ data.length) ∧
    (∀ j, j < dst ∨ dst + count ≤ j → out.data.get? j = data.get? j) ∧
    (∀ p ∈ out.copies, p ∈ cs ∨ (p.1 < p.2 ∧ p.2 < data.length)) ∧
    (∀ w ∈ out.writes, w ∈ ws ∨ w < data.length) := by
  intro count
  induction count with
  | zero =>
    intro ring dst data cs ws out _ h
    simp only [dsc_copy, Except.ok.injEq] at h
    subst h
    refine ⟨rfl, rfl, by omega, fun j _ => rfl, fun p hp => .inl hp, fun w hw => .inl hw⟩
  | succ c ih =>
    intro ring dst data cs ws out hrd h
    simp only [dsc_copy] at h
    cases hg : data.get? ring with
    | none => rw [getB, hg] at h; exact absurd h (by simp [Bind.bind, Except.bind])
    | some tmp =>
      rw [getB, hg] at h
      simp only [Bind.bind, Except.bind] at h
      rw [setB] at h
      by_cases hdl : dst < data.length
      · rw [if_pos hdl] at h
        simp only at h
        have ih2 := ih (ring + 1) (dst + 1) (data.set dst tmp)
          (cs ++ [(ring, dst)]) (ws ++ [dst]) out (by omega) h
        obtain ⟨i1, i2, i3, i4, i5, i6⟩ := ih2
        refine ⟨by rw [i1, List.length_set], by omega, by
            intro _
            rcases Nat.eq_zero_or_pos c with hc | hc
            · subst hc; simpa [List.length_set] using hdl
            · have := i3 hc; rw [List.length_set] at this; omega,
          ?_, ?_, ?_⟩
        · intro j hj
          have hj2 : j < dst + 1 ∨ dst + 1 + c ≤ j := by omega
          rw [i4 j hj2]
          exact List.get?_set_ne tmp data (by omega)
        · intro p hp
          rcases i5 p hp with hin | hgood
          · rcases List.mem_append.mp hin with h1 | h2
            · exact .inl h1
            · right
              have : p = (ring, dst) := by simpa using h2
              subst this
              exact ⟨hrd, hdl⟩
          · rw [List.length_set] at hgood
            exact .inr hgood
        · intro w hw
          rcases i6 w hw with hin | hgood
          · rcases List.mem_append.mp hin with h1 | h2
            · exact .inl h1
            · right
              have : w = dst := by simpa using h2
              subst this
              exact hdl
          · rw [List.length_set] at hgood
            exact .inr hgood
      · rw [if_neg hdl] at h
        exact absurd h (by simp)

/-- Invariant of the decompression loop: the output buffer keeps
length `dstEnd`, the cursor never passes `dstEnd`, all not-yet-written
positions hold 0, every recorded copy reads strictly below its write
index, and every write lands inside the buffer. -/
theorem dsc_loop_spec : ∀ (fuel : Nat) (nodes : List NodeDSC) (crypted : List Nat)
    (srcEnd dstEnd : Nat) (st r : DscState),
    st.data.length = dstEnd →
    st.dst ≤ dstEnd →
    (∀ j, st.dst ≤ j → j < dstEnd → st.data.get? j = some 0) →
    (∀ p ∈ st.copies, p.1 < p.2 ∧ p.2 < dstEnd) →
    (∀ w ∈ st.writes, w < dstEnd) →
    dsc_loop fuel nodes crypted srcEnd dstEnd st = .ok r →
    r.data.length = dstEnd ∧ r.dst ≤ dstEnd ∧
    (∀ j, r.dst ≤ j → j < dstEnd → r.data.get? j = some 0) ∧
    (∀ p ∈ r.copies, p.1 < p.2 ∧ p.2 < dstEnd) ∧
    (∀ w ∈ r.writes, w < dstEnd) := by
  intro fuel
  induction fuel with
  | zero =>
    intro nodes crypted srcEnd dstEnd st r _ _ _ _ _ h
    exact absurd h (by simp [dsc_loop])
  | succ f ih =>
    intro nodes crypted srcEnd dstEnd st r hlen hdst hz hcs hws h
    rw [dsc_loop] at h
    split at h
    case isFalse =>
      simp only [Except.ok.injEq] at h
      subst h
      exact ⟨hlen, hdst, hz, hcs, hws⟩
    case isTrue hcond =>
      simp only [Bind.bind] at h
      obtain ⟨w, hw, h⟩ := bind_ok h
      obtain ⟨nd, hnd, h⟩ := bind_ok h
      split at h
      case isTrue hmatch =>
        -- match token
        split at h
        case isTrue => exact absurd h (by simp)
        case isFalse hnb =>
          split at h
          case h_1 => exact absurd h (by simp)
          case h_2 src3 cv2 nb2 ht =>
            split at h
            case isTrue => exact absurd h (by simp)
            case isFalse h12 =>
              split at h
              case isTrue => exact absurd h (by simp)
              case isFalse h8 =>
                split at h
                case isTrue => exact absurd h (by simp)
                case isFalse hoff =>
                  obtain ⟨co, hco, h⟩ := bind_ok h
                  have hoff2 := Nat.le_of_not_lt hoff
                  have hring : st.dst - ((cv2 >>> (nb2 - 12)) + 2) < st.dst := by
                    generalize (cv2 >>> (nb2 - 12)) = o at hoff2 ⊢
                    omega
                  have hspec := dsc_copy_spec ((nd.leaf_value % 65536 &&& 255) + 2)
                    (st.dst - ((cv2 >>> (nb2 - 12)) + 2)) st.dst st.data st.copies
                    st.writes co hring hco
                  obtain ⟨c1, c2, c3, c4, c5, c6⟩ := hspec
                  have hco_dst : co.dst ≤ dstEnd := by
                    have := c3 (by omega)
                    omega
                  refine ih nodes crypted srcEnd dstEnd _ r ?_ ?_ ?_ ?_ ?_ h
                  · simpa [c1] using hlen
                  · simpa using hco_dst
                  · intro j hj1 hj2
                    simp only at hj1 ⊢
                    rw [c4 j (by omega)]
                    exact hz j (by omega) hj2
                  · intro p hp
                    simp only at hp
                    rcases c5 p hp with hin | hgood
                    · exact hcs p hin
                    · rw [hlen] at hgood
                      exact hgood
                  · intro wx hwx
                    simp only at hwx
                    rcases c6 wx hwx with hin | hgood
                    · exact hws wx hin
                    · rw [hlen] at hgood
                      exact hgood
      case isFalse hlit =>
        obtain ⟨data2, hset, h⟩ := bind_ok h
        rw [setB] at hset
        split at hset
        case isFalse => exact absurd hset (by simp)
        case isTrue hdl =>
          simp only [Except.ok.injEq] at hset
          subst hset
          refine ih nodes crypted srcEnd dstEnd _ r ?_ ?_ ?_ ?_ ?_ h
          · simpa [List.length_set] using hlen
          · simp only
            omega
          · intro j hj1 hj2
            simp only at hj1 ⊢
            rw [List.get?_set_ne _ _ (by omega)]
            exact hz j (by omega) hj2
          · intro p hp
            simp only at hp
            exact hcs p hp
          · intro wx hwx
            simp only at hwx
            rcases List.mem_append.mp hwx with h1 | h2
            · exact hws wx h1
            · have : wx = st.dst := by simpa using h2
              subst this
              omega

/-- Combined specification of `dsc::decrypt` on any accepted input,
obtained by inverting the pipeline and applying the loop invariant to
the zero-initialised output buffer. -/
theorem dsc_decrypt_full_spec (crypted : List Nat) (csize : Nat) (r : DscResult)
    (h : dsc_decrypt_full crypted csize = .ok r) :
    read32At crypted 20 = some r.size ∧
    r.data.length = r.size ∧
    r.finalDst ≤ r.size ∧
    (∀ j, r.finalDst ≤ j → j < r.size → r.data.get? j = some 0) ∧
    (∀ p ∈ r.copies, p.1 < p.2 ∧ p.2 < r.size) ∧
    (∀ w ∈ r.writes, w < r.size) := by
  unfold dsc_decrypt_full at h
  split at h
  case isTrue => exact absurd h (by simp)
  case isFalse =>
    split at h
    case h_2 => exact absurd h (by simp)
    case h_1 hash0 size h16 h20 =>
      split at h
      case h_1 => exact absurd h (by simp)
      case h_2 buffer hbuf =>
        split at h
        case h_1 => exact absurd h (by simp)
        case h_2 nodes hlev =>
          split at h
          case isTrue => exact absurd h (by simp)
          case isFalse =>
            split at h
            case h_1 => exact absurd h (by simp)
            case h_2 st hloop =>
              simp only [Except.ok.injEq] at h
              subst h
              have hspec := dsc_loop_spec (size + 1) nodes crypted (csize - 544) size
                ⟨0, 0, 0, 0, List.replicate size 0, [], []⟩ st
                (by simp) (by simp) ?_ (by simp) (by simp) hloop
              · obtain ⟨s1, s2, s3, s4, s5⟩ := hspec
                exact ⟨by rw [h20], s1, s2, s3, s4, s5⟩
              · intro j _ hj
                simp only
                simp [List.get?_eq_getElem?, List.getElem?_replicate, hj]

/-- C2: DSC LZ back-reference safety.  For every input on which
`dsc::decrypt` returns (under checked `u32` arithmetic an offset
exceeding `dst` is an underflow panic, hence never part of an
accepted run), every byte emitted by a match token reads from an
index that is a natural number (≥ 0) strictly below the write cursor
`dst` at the moment of the copy, which itself stays inside the
output buffer. -/
theorem dsc_lz_backref_safety (crypted : List Nat) (csize : Nat) (r : DscResult)
    (h : dsc_decrypt_full crypted csize = .ok r) :
    ∀ p ∈ r.copies, p.1 < p.2 ∧ p.2 < r.size :=
  (dsc_decrypt_full_spec crypted csize r h).2.2.2.2.1

/-- C10: DSC output length invariant.  On every accepted input,
`dsc::decrypt` returns the declared decoded size `S` (the `u32` at
header offset 20) together with a buffer of exactly `S` bytes; every
write of the decoder lands below `S`; and when the compressed stream
runs out early (final cursor `finalDst < S`) all unwritten positions
hold zero. -/
theorem dsc_output_invariant (crypted : List Nat) (csize : Nat) (r : DscResult)
    (h : dsc_decrypt_full crypted csize = .ok r) :
    read32At crypted 20 = some r.size ∧
    r.data.length = r.size ∧
    (∀ w ∈ r.writes, w < r.size) ∧
    r.finalDst ≤ r.size ∧
    (∀ j, r.finalDst ≤ j → j < r.size → r.data.get? j = some 0) := by
  obtain ⟨s0, s1, s2, s3, s4, s5⟩ := dsc_decrypt_full_spec crypted csize r h
  exact ⟨s0, s1, s5, s2, s3⟩

/-- The decode of `dsc_witness_input`: `A`, `A`, then a match copying
two bytes from offset 2 (spec scenario S3 extended with one match). -/
def dsc_witness_result : DscResult :=
  ⟨[65, 65, 65, 65], 4, 4, [(0, 2), (1, 3)], [0, 1, 2, 3]⟩

/-- Witness: the concrete decode exercises the match branch; its two
copy pairs read below their write indices. -/
theorem dsc_lz_backref_safety_witness :
    dsc_decrypt_full dsc_witness_input 546 = .ok dsc_witness_result ∧
    ∀ p ∈ dsc_witness_result.copies, p.1 < p.2 ∧ p.2 < dsc_witness_result.size :=
  have h : dsc_decrypt_full dsc_witness_input 546 = .ok dsc_witness_result := by decide
  ⟨h, dsc_lz_backref_safety dsc_witness_input 546 dsc_witness_result h⟩

/-- Witness: the same decode returns exactly the 4 declared bytes. -/
theorem dsc_output_invariant_witness :
    read32At dsc_witness_input 20 = some dsc_witness_result.size ∧
    dsc_witness_result.data.length = dsc_witness_result.size ∧
    (∀ w ∈ dsc_witness_result.writes, w < dsc_witness_result.size) ∧
    dsc_witness_result.finalDst ≤ dsc_witness_result.size ∧
    (∀ j, dsc_witness_result.finalDst ≤ j → j < dsc_witness_result.size →
      dsc_witness_result.data.get? j = some 0) :=
  dsc_output_invariant dsc_witness_input 546 dsc_witness_result (by decide)

/-! ### `cbg.rs`: weighted Huffman tree (`HuffmanTree::new`) -/

/-- `HuffmanNode` of `cbg.rs`. -/
structure HuffmanNode where
  valid : Bool
  is_parent : Bool
  weight : Nat
  left_child_index : Int
  right_child_index : Int
deriving DecidableEq, Repr

/-- The strict-minimum scan of `HuffmanTree::new`
(`if node_list[n].valid && node_list[n].weight < min_weight`),
walking the suffix `l` whose head sits at absolute index `n`. -/
def scanGo : List HuffmanNode → Nat → Nat → Option Nat → Option Nat
  | [], _, _, best => best
  | nd :: rest, n, minw, best =>
    if nd.valid = true ∧ nd.weight < minw then scanGo rest (n + 1) nd.weight (some n)
    else scanGo rest (n + 1) minw best

/-- The v2 pre-pass: take the first valid node unconditionally. -/
def findFirstValid : List HuffmanNode → Nat → Option Nat
  | [], _ => none
  | nd :: rest, n => if nd.valid = true then some n else findFirstValid rest (n + 1)

/-- `child_node_index[i]` selection.  In v2 mode the first valid node
seeds the scan (its weight becomes `min_weight`) and the strict scan
resumes from `max(first + 1, i + 1)`; in v1 mode the scan starts from
0 with the sentinel `min_weight = u32::MAX` — so a valid node whose
weight is exactly `u32::MAX` is never selected in v1 mode. -/
def selectChild (v2m : Bool) (i : Nat) (ns : List HuffmanNode) : Option Nat :=
  if v2m then
    match findFirstValid ns 0 with
    | some k =>
      let m := max (k + 1) (i + 1)
      scanGo (ns.drop m) m
        (match ns.get? k with | some nd => nd.weight | none => 0) (some k)
    | none =>
      let m := max ns.length (i + 1)
      scanGo (ns.drop m) m 4294967295 none
  else scanGo ns 0 4294967295 none

/-- `node_list[idx].valid = false`. -/
def invalidateAt (ns : List HuffmanNode) (k : Nat) : List HuffmanNode :=
  match ns.get? k with
  | some nd => ns.set k { nd with valid := false }
  | none => ns

/-- One child selection with invalidation and weight accumulation
(`weight += node_list[idx].weight; node_list[idx].valid = false`);
an absent candidate leaves the state unchanged (`child = -1`,
`continue`). -/
def pickOne (v2m : Bool) (i : Nat) (ns : List HuffmanNode) (w : Nat) :
    List HuffmanNode × Nat × Int :=
  match selectChild v2m i ns with
  | some k =>
    (invalidateAt ns k,
     w + (match ns.get? k with | some nd => nd.weight | none => 0),
     Int.ofNat k)
  | none => (ns, w, -1)

/-- One iteration of the construction loop: select the two children,
push the parent node. -/
def huffman_step (v2m : Bool) (ns : List HuffmanNode) : List HuffmanNode × Nat :=
  let p0 := pickOne v2m 0 ns 0
  let p1 := pickOne v2m 1 p0.1 p0.2.1
  (p1.1 ++ [⟨true, true, p1.2.1, p0.2.2, p1.2.2⟩], p1.2.1)

/-- The `loop { ... if weight >= root_node_weight { break } }` of
`HuffmanTree::new`. -/
def huffman_loop (v2m : Bool) (total : Nat) : Nat → List HuffmanNode →
    ArcResult (List HuffmanNode)
  | 0, _ => .error .Panic
  | f+1, ns =>
    let s := huffman_step v2m ns
    if total ≤ s.2 then .ok s.1 else huffman_loop v2m total f s.1

/-- The initial leaf list: `valid = (weight != 0)`, children 0. -/
def huffman_leaves (ws : List Nat) : List HuffmanNode :=
  ws.map (fun w => ⟨decide (w ≠ 0), false, w, 0, 0⟩)

/-- `root_node_weight`: the sum of the weight table. -/
def wsum (ws : List Nat) : Nat := ws.sum

/-- `HuffmanTree::new` with fuel `ws.length + 1`: each non-breaking
iteration removes two valid nodes and adds one, so the valid count —
at most `ws.length` initially — strictly decreases and the fuel is
never exhausted (proved in `huffman_loop_spec`). -/
def huffman_new (ws : List Nat) (v2m : Bool) : ArcResult (List HuffmanNode) :=
  huffman_loop v2m (wsum ws) (ws.length + 1) (huffman_leaves ws)

/-- `HuffmanTree::decode_token`, descending from `node_index` while
the node is a parent; a negative child index is the Rust
`as usize` out-of-bounds panic. -/
def decode_token_go : Nat → List HuffmanNode → Int → MsbBitStream →
    ArcResult (Nat × MsbBitStream)
  | 0, _, _, _ => .error .Panic
  | f+1, ns, idx, s =>
    match idx with
    | .negSucc _ => .error .Panic
    | .ofNat j =>
      match ns.get? j with
      | none => .error .Panic
      | some nd =>
        if nd.is_parent = true then
          match get_next_bit s with
          | .error e => .error e
          | .ok (bit, s2) =>
            decode_token_go f ns
              (if bit = 0 then nd.left_child_index else nd.right_child_index) s2
        else .ok (j, s)

/-- `decode_token` starts at the root, the last appended node
(`node_index = nodes.len() - 1`). -/
def decode_token (ns : List HuffmanNode) (s : MsbBitStream) :
    ArcResult (Nat × MsbBitStream) :=
  decode_token_go (ns.length + 1) ns (Int.ofNat (ns.length - 1)) s

/-- An all-zero MSB bit stream of `m` bytes. -/
def zeroStream (m : Nat) : MsbBitStream := ⟨List.replicate m 0, 0, 0, 0⟩

/-- Reachability along child indices in the flat node array. -/
inductive Reach (ns : List HuffmanNode) : Nat → Nat → Prop where
  | refl (j : Nat) : Reach ns j j
  | left {j k i : Nat} (nd : HuffmanNode) (h : ns.get? j = some nd)
      (hl : nd.left_child_index = Int.ofNat k) (hr : Reach ns k i) : Reach ns j i
  | right {j k i : Nat} (nd : HuffmanNode) (h : ns.get? j = some nd)
      (hl : nd.right_child_index = Int.ofNat k) (hr : Reach ns k i) : Reach ns j i

/-- Sum of the weights of the still-valid nodes. -/
def validSum (ns : List HuffmanNode) : Nat :=
  (ns.map (fun nd => if nd.valid then nd.weight else 0)).sum

/-- Number of still-valid nodes. -/
def validCount (ns : List HuffmanNode) : Nat :=
  (ns.filter (fun nd => nd.valid)).length

theorem validSum_cons (hd : HuffmanNode) (tl : List HuffmanNode) :
    validSum (hd :: tl) = (if hd.valid then hd.weight else 0) + validSum tl := by
  simp [validSum]

theorem validCount_cons (hd : HuffmanNode) (tl : List HuffmanNode) :
    validCount (hd :: tl) = (if hd.valid then 1 else 0) + validCount tl := by
  by_cases hh : hd.valid <;> simp [validCount, List.filter_cons, hh, Nat.add_comm]

theorem validSum_append (ns : List HuffmanNode) (P : HuffmanNode) :
    validSum (ns ++ [P]) = validSum ns + (if P.valid then P.weight else 0) := by
  simp [validSum]

theorem validCount_append_valid (ns : List HuffmanNode) (P : HuffmanNode)
    (h : P.valid = true) : validCount (ns ++ [P]) = validCount ns + 1 := by
  simp [validCount, h]

theorem invalidateAt_get_ne (ns : List HuffmanNode) (k j : Nat) (h : j ≠ k) :
    (invalidateAt ns k).get? j = ns.get? j := by
  unfold invalidateAt
  cases hk : ns.get? k with
  | none => rfl
  | some nd => exact List.get?_set_ne _ _ (fun he => h he.symm)

theorem invalidateAt_cons_succ (hd : HuffmanNode) (tl : List HuffmanNode) (k : Nat) :
    invalidateAt (hd :: tl) (k + 1) = hd :: invalidateAt tl k := by
  unfold invalidateAt
  simp only [List.get?]
  cases htk : tl.get? k with
  | none => simp [htk]
  | some x => simp [htk, List.set]

theorem invalidateAt_get_self (ns : List HuffmanNode) (k : Nat) (nd : HuffmanNode)
    (h : ns.get? k = some nd) :
    (invalidateAt ns k).get? k = some { nd with valid := false } := by
  induction ns generalizing k with
  | nil => simp at h
  | cons hd tl ih =>
    cases k with
    | zero =>
      simp only [List.get?] at h
      cases h
      simp [invalidateAt, List.get?, List.set]
    | succ k2 =>
      simp only [List.get?] at h
      rw [invalidateAt_cons_succ]
      simpa using ih k2 h

theorem invalidateAt_length (ns : List HuffmanNode) (k : Nat) :
    (invalidateAt ns k).length = ns.length := by
  unfold invalidateAt
  cases ns.get? k <;> simp

theorem validSum_invalidate (ns : List HuffmanNode) (k : Nat) (nd : HuffmanNode)
    (h : ns.get? k = some nd) (hv : nd.valid = true) :
    validSum (invalidateAt ns k) + nd.weight = validSum ns := by
  induction ns generalizing k with
  | nil => simp at h
  | cons hd tl ih =>
    cases k with
    | zero =>
      simp only [List.get?] at h
      cases h
      simp [invalidateAt, List.get?, List.set, validSum_cons, hv]
      omega
    | succ k2 =>
      simp only [List.get?] at h
      rw [invalidateAt_cons_succ, validSum_cons, validSum_cons]
      have := ih k2 h
      omega

theorem validCount_invalidate (ns : List HuffmanNode) (k : Nat) (nd : HuffmanNode)
    (h : ns.get? k = some nd) (hv : nd.valid = true) :
    validCount (invalidateAt ns k) + 1 = validCount ns := by
  induction ns generalizing k with
  | nil => simp at h
  | cons hd tl ih =>
    cases k with
    | zero =>
      simp only [List.get?] at h
      cases h
      simp [invalidateAt, List.get?, List.set, validCount_cons, hv]
      omega
    | succ k2 =>
      simp only [List.get?] at h
      rw [invalidateAt_cons_succ, validCount_cons, validCount_cons]
      have := ih k2 h
      omega

theorem weight_le_validSum (ns : List HuffmanNode) (k : Nat) (nd : HuffmanNode)
    (h : ns.get? k = some nd) (hv : nd.valid = true) :
    nd.weight ≤ validSum ns := by
  induction ns generalizing k with
  | nil => simp at h
  | cons hd tl ih =>
    cases k with
    | zero =>
      simp only [List.get?] at h
      cases h
      rw [validSum_cons]
      simp [hv]
    | succ k2 =>
      simp only [List.get?] at h
      have := ih k2 h
      rw [validSum_cons]
      omega

theorem validSum_pos_exists (ns : List HuffmanNode) (h : 0 < validSum ns) :
    ∃ k nd, ns.get? k = some nd ∧ nd.valid = true ∧ 0 < nd.weight := by
  induction ns with
  | nil => simp [validSum] at h
  | cons hd tl ih =>
    by_cases hh : hd.valid = true ∧ 0 < hd.weight
    · exact ⟨0, hd, rfl, hh.1, hh.2⟩
    · have hw : (if hd.valid = true then hd.weight else 0) = 0 := by
        rcases Bool.eq_false_or_eq_true hd.valid with hb | hb
        · have hz : hd.weight = 0 := by
            by_contra hnz
            exact hh ⟨hb, Nat.pos_of_ne_zero hnz⟩
          simp [hb, hz]
        · simp [hb]
      rw [validSum_cons, hw] at h
      obtain ⟨k, nd, h1, h2, h3⟩ := ih (by omega)
      exact ⟨k + 1, nd, h1, h2, h3⟩

theorem validSum_zero_valid (ns : List HuffmanNode) (h : validSum ns = 0)
    (k : Nat) (nd : HuffmanNode) (hk : ns.get? k = some nd) (hv : nd.valid = true) :
    nd.weight = 0 := by
  have := weight_le_validSum ns k nd hk hv
  omega

theorem validCount_pos (ns : List HuffmanNode) (k : Nat) (nd : HuffmanNode)
    (hk : ns.get? k = some nd) (hv : nd.valid = true) : 0 < validCount ns := by
  induction ns generalizing k with
  | nil => simp at hk
  | cons hd tl ih =>
    cases k with
    | zero =>
      simp only [List.get?] at hk
      cases hk
      rw [validCount_cons]
      simp [hv]
    | succ k2 =>
      simp only [List.get?] at hk
      have := ih k2 hk
      rw [validCount_cons]
      omega

theorem validCount_le_length (ns : List HuffmanNode) : validCount ns ≤ ns.length :=
  List.length_filter_le _ ns

theorem reach_append (ns more : List HuffmanNode) {j i : Nat}
    (h : Reach ns j i) : Reach (ns ++ more) j i := by
  induction h with
  | refl j => exact .refl j
  | left nd hg hl _ ih =>
    exact .left nd (by rw [List.get?_append (get?_some_lt hg)]; exact hg) hl ih
  | right nd hg hl _ ih =>
    exact .right nd (by rw [List.get?_append (get?_some_lt hg)]; exact hg) hl ih

theorem reach_invalidate (ns : List HuffmanNode) (k : Nat) {j i : Nat}
    (h : Reach ns j i) : Reach (invalidateAt ns k) j i := by
  induction h with
  | refl j => exact .refl j
  | left nd hg hl _ ih =>
    rename_i jx cx ix hrx
    by_cases hjk : jx = k
    · subst hjk
      exact .left _ (invalidateAt_get_self ns jx nd hg) hl ih
    · exact .left nd (by rw [invalidateAt_get_ne ns k jx hjk]; exact hg) hl ih
  | right nd hg hl _ ih =>
    rename_i jx cx ix hrx
    by_cases hjk : jx = k
    · subst hjk
      exact .right _ (invalidateAt_get_self ns jx nd hg) hl ih
    · exact .right nd (by rw [invalidateAt_get_ne ns k jx hjk]; exact hg) hl ih

theorem get_invalidate_cases (ns : List HuffmanNode) (k j : Nat) (nd2 : HuffmanNode)
    (h : (invalidateAt ns k).get? j = some nd2) :
    ns.get? j = some nd2 ∨
    (j = k ∧ ∃ nd, ns.get? j = some nd ∧ nd2 = { nd with valid := false }) := by
  by_cases hjk : j = k
  · subst hjk
    cases hg : ns.get? j with
    | none =>
      left
      have h2 : ns.get? j = some nd2 := by
        unfold invalidateAt at h
        rw [hg] at h
        simpa using h
      rw [hg] at h2
      exact h2
    | some nd =>
      right
      refine ⟨rfl, nd, rfl, ?_⟩
      rw [invalidateAt_get_self ns j nd hg] at h
      exact (Option.some.injEq _ _ ▸ h).symm
  · left
    rw [invalidateAt_get_ne ns k j hjk] at h
    exact h

theorem scanGo_some : ∀ (l : List HuffmanNode) (n minw : Nat) (best : Option Nat)
    (k : Nat), scanGo l n minw best = some k →
    best = some k ∨
    (n ≤ k ∧ ∃ nd, l.get? (k - n) = some nd ∧ nd.valid = true ∧ nd.weight < minw) := by
  intro l
  induction l with
  | nil =>
    intro n minw best k h
    exact .inl h
  | cons hd tl ih =>
    intro n minw best k h
    rw [scanGo] at h
    split at h
    case isTrue hc =>
      rcases ih (n + 1) hd.weight (some n) k h with heq | ⟨hle, nd, hget, hval, hwlt⟩
      · cases heq
        right
        exact ⟨le_refl n, hd, by simp, hc.1, hc.2⟩
      · right
        refine ⟨by omega, nd, ?_, hval, by omega⟩
        have : k - n = (k - (n + 1)) + 1 := by omega
        rw [this]
        simpa using hget
    case isFalse hc =>
      rcases ih (n + 1) minw best k h with heq | ⟨hle, nd, hget, hval, hwlt⟩
      · exact .inl heq
      · right
        refine ⟨by omega, nd, ?_, hval, hwlt⟩
        have : k - n = (k - (n + 1)) + 1 := by omega
        rw [this]
        simpa using hget

theorem scanGo_none : ∀ (l : List HuffmanNode) (n minw : Nat) (best : Option Nat),
    scanGo l n minw best = none →
    best = none ∧ ∀ nd ∈ l, nd.valid = true → minw ≤ nd.weight := by
  intro l
  induction l with
  | nil =>
    intro n minw best h
    exact ⟨h, by simp⟩
  | cons hd tl ih =>
    intro n minw best h
    rw [scanGo] at h
    split at h
    case isTrue hc =>
      obtain ⟨hcontra, _⟩ := ih (n + 1) hd.weight (some n) h
      exact absurd hcontra (by simp)
    case isFalse hc =>
      obtain ⟨h1, h2⟩ := ih (n + 1) minw best h
      refine ⟨h1, ?_⟩
      intro nd hmem hv
      rcases List.mem_cons.mp hmem with he | ht
      · subst he
        by_contra hlt
        exact hc ⟨hv, by omega⟩
      · exact h2 nd ht hv

theorem findFirstValid_some : ∀ (l : List HuffmanNode) (n k : Nat),
    findFirstValid l n = some k →
    n ≤ k ∧ ∃ nd, l.get? (k - n) = some nd ∧ nd.valid = true := by
  intro l
  induction l with
  | nil => intro n k h; simp [findFirstValid] at h
  | cons hd tl ih =>
    intro n k h
    rw [findFirstValid] at h
    split at h
    case isTrue hc =>
      cases h
      exact ⟨le_refl n, hd, by simp, hc⟩
    case isFalse hc =>
      obtain ⟨hle, nd, hget, hval⟩ := ih (n + 1) k h
      refine ⟨by omega, nd, ?_, hval⟩
      have : k - n = (k - (n + 1)) + 1 := by omega
      rw [this]
      simpa using hget

theorem findFirstValid_none : ∀ (l : List HuffmanNode) (n : Nat),
    findFirstValid l n = none → ∀ nd ∈ l, nd.valid = false := by
  intro l
  induction l with
  | nil => intro n _ nd hmem; simp at hmem
  | cons hd tl ih =>
    intro n h nd hmem
    rw [findFirstValid] at h
    split at h
    case isTrue => simp at h
    case isFalse hc =>
      rcases List.mem_cons.mp hmem with he | ht
      · subst he
        simpa using hc
      · exact ih (n + 1) h nd ht

theorem scanGo_some_best_ne_none : ∀ (l : List HuffmanNode) (n minw b : Nat),
    scanGo l n minw (some b) ≠ none := by
  intro l
  induction l with
  | nil => intro n minw b h; simp [scanGo] at h
  | cons hd tl ih =>
    intro n minw b h
    rw [scanGo] at h
    split at h
    · exact ih (n + 1) hd.weight n h
    · exact ih (n + 1) minw b h

/-- Any index returned by `selectChild` points at a valid node. -/
theorem selectChild_some_valid (v2m : Bool) (i : Nat) (ns : List HuffmanNode)
    (k : Nat) (h : selectChild v2m i ns = some k) :
    ∃ nd, ns.get? k = some nd ∧ nd.valid = true := by
  unfold selectChild at h
  split at h
  case isTrue =>
    split at h
    case h_1 k0 hffv =>
      obtain ⟨_, nd0, hget0, hval0⟩ := findFirstValid_some ns 0 k0 hffv
      simp only [Nat.sub_zero] at hget0
      rcases scanGo_some _ _ _ _ _ h with heq | ⟨hle, nd, hget, hval, _⟩
      · cases heq
        exact ⟨nd0, hget0, hval0⟩
      · refine ⟨nd, ?_, hval⟩
        rw [List.get?_drop] at hget
        rw [← hget]
        congr 1
        omega
    case h_2 hffv =>
      rcases scanGo_some _ _ _ _ _ h with heq | ⟨hle, nd, hget, hval, _⟩
      · simp at heq
      · refine ⟨nd, ?_, hval⟩
        rw [List.get?_drop] at hget
        rw [← hget]
        congr 1
        omega
  case isFalse =>
    rcases scanGo_some _ _ _ _ _ h with heq | ⟨hle, nd, hget, hval, _⟩
    · simp at heq
    · rw [Nat.sub_zero] at hget
      exact ⟨nd, hget, hval⟩

/-- If some node is valid (and in v1 mode every valid weight is below
the `u32::MAX` sentinel), `selectChild` finds one. -/
theorem selectChild_some_of_valid (v2m : Bool) (i : Nat) (ns : List HuffmanNode)
    (hw : ∀ j nd, ns.get? j = some nd → nd.valid = true → nd.weight < 4294967295)
    (j : Nat) (ndj : HuffmanNode) (hj : ns.get? j = some ndj) (hv : ndj.valid = true) :
    ∃ k, selectChild v2m i ns = some k := by
  unfold selectChild
  split
  case isTrue =>
    cases hffv : findFirstValid ns 0 with
    | none =>
      have := findFirstValid_none ns 0 hffv ndj (List.get?_mem hj)
      rw [hv] at this
      exact absurd this (by simp)
    | some k0 =>
      simp only
      cases hscan : scanGo (ns.drop (max (k0 + 1) (i + 1))) (max (k0 + 1) (i + 1))
          (match ns.get? k0 with | some nd => nd.weight | none => 0) (some k0) with
      | none => exact absurd hscan (scanGo_some_best_ne_none _ _ _ _)
      | some k => exact ⟨k, rfl⟩
  case isFalse =>
    cases hscan : scanGo ns 0 4294967295 none with
    | none =>
      obtain ⟨_, hall⟩ := scanGo_none ns 0 4294967295 none hscan
      have := hall ndj (List.get?_mem hj) hv
      have := hw j ndj hj hv
      omega
    | some k => exact ⟨k, rfl⟩

theorem selectChild_none_no_valid (v2m : Bool) (i : Nat) (ns : List HuffmanNode)
    (hw : ∀ j nd, ns.get? j = some nd → nd.valid = true → nd.weight < 4294967295)
    (h : selectChild v2m i ns = none) :
    ∀ j nd, ns.get? j = some nd → nd.valid = false := by
  intro j nd hj
  rcases Bool.eq_false_or_eq_true nd.valid with hv | hv
  · obtain ⟨k, hk⟩ := selectChild_some_of_valid v2m i ns hw j nd hj hv
    rw [hk] at h
    simp at h
  · exact hv

theorem validSum_zero_of_no_valid : ∀ (ns : List HuffmanNode),
    (∀ nd ∈ ns, nd.valid = false) → validSum ns = 0 := by
  intro ns
  induction ns with
  | nil => intro _; rfl
  | cons hd tl ih =>
    intro h
    rw [validSum_cons, ih (fun nd hm => h nd (List.mem_cons_of_mem hd hm))]
    simp [h hd (List.mem_cons_self hd tl)]

/-- Well-formedness of parent links: every parent's left child exists
and sits strictly below it; the right child is `-1` or also strictly
below. -/
def parentOK (ns : List HuffmanNode) : Prop :=
  ∀ j nd, ns.get? j = some nd → nd.is_parent = true →
    (∃ l, nd.left_child_index = Int.ofNat l ∧ l < j) ∧
    (nd.right_child_index = -1 ∨ ∃ rr, nd.right_child_index = Int.ofNat rr ∧ rr < j)

theorem parentOK_invalidate {ns : List HuffmanNode} (k : Nat)
    (h : parentOK ns) : parentOK (invalidateAt ns k) := by
  intro j nd2 hget hp
  rcases get_invalidate_cases ns k j nd2 hget with horig | ⟨_, nd, hnd, hby⟩
  · exact h j nd2 horig hp
  · subst hby
    exact h j nd hnd (by simpa using hp)

theorem parentOK_append {ns : List HuffmanNode} {P : HuffmanNode}
    (h : parentOK ns)
    (hP : (∃ l, P.left_child_index = Int.ofNat l ∧ l < ns.length) ∧
      (P.right_child_index = -1 ∨
        ∃ rr, P.right_child_index = Int.ofNat rr ∧ rr < ns.length)) :
    parentOK (ns ++ [P]) := by
  intro j nd hget hp
  by_cases hj : j < ns.length
  · rw [List.get?_append hj] at hget
    exact h j nd hget hp
  · have hlt := get?_some_lt hget
    rw [List.length_append, List.length_cons, List.length_nil] at hlt
    have hj2 : j = ns.length := by omega
    subst hj2
    rw [List.get?_concat_length] at hget
    cases hget
    exact hP

/-- The loop invariant of `HuffmanTree::new`: the valid nodes carry
exactly the total weight, every valid node has positive weight,
parent links are well-formed, and every non-zero leaf is reachable
from some valid node. -/
def huffInv (ws : List Nat) (ns : List HuffmanNode) : Prop :=
  validSum ns = wsum ws ∧
  (∀ j nd, ns.get? j = some nd → nd.valid = true → 0 < nd.weight) ∧
  parentOK ns ∧
  (∀ i w, ws.get? i = some w → w ≠ 0 →
    ∃ j nd, ns.get? j = some nd ∧ nd.valid = true ∧ Reach ns j i)

/-- The shape claimed for the finished tree: the root (the last
appended node) is a parent carrying the full weight sum, parent links
descend strictly (left always present), and every non-zero leaf is
reachable from the root. -/
def treeOK (ws : List Nat) (out : List HuffmanNode) : Prop :=
  (∃ P, out.get? (out.length - 1) = some P ∧ P.is_parent = true ∧
    P.weight = wsum ws) ∧
  parentOK out ∧
  (∀ i w, ws.get? i = some w → w ≠ 0 → Reach out (out.length - 1) i)

theorem huffman_loop_spec (v2m : Bool) (ws : List Nat) :
    ∀ (fuel : Nat) (ns : List HuffmanNode),
    huffInv ws ns → validCount ns ≤ fuel → 0 < wsum ws → wsum ws < 4294967295 →
    ∃ out, huffman_loop v2m (wsum ws) fuel ns = .ok out ∧ treeOK ws out := by
  intro fuel
  induction fuel with
  | zero =>
    intro ns hInv hcount hpos hmax
    obtain ⟨hA, hB, hC, hD⟩ := hInv
    obtain ⟨k, nd, hget, hval, _⟩ := validSum_pos_exists ns (by rw [hA]; exact hpos)
    have := validCount_pos ns k nd hget hval
    omega
  | succ f ih =>
    intro ns hInv hcount hpos hmax
    obtain ⟨hA, hB, hC, hD⟩ := hInv
    have hwlt : ∀ j nd, ns.get? j = some nd → nd.valid = true →
        nd.weight < 4294967295 := by
      intro j nd hj hv
      have := weight_le_validSum ns j nd hj hv
      omega
    obtain ⟨kx, ndx, hgetx, hvalx, hwposx⟩ :=
      validSum_pos_exists ns (by rw [hA]; exact hpos)
    obtain ⟨k0, hsel0⟩ := selectChild_some_of_valid v2m 0 ns hwlt kx ndx hgetx hvalx
    obtain ⟨nd0, hget0, hval0⟩ := selectChild_some_valid v2m 0 ns k0 hsel0
    have hp0 : pickOne v2m 0 ns 0 = (invalidateAt ns k0, nd0.weight, Int.ofNat k0) := by
      have hget0b : ns[k0]? = some nd0 := by
        rw [← List.get?_eq_getElem?]
        exact hget0
      unfold pickOne
      rw [hsel0]
      simp [hget0b]
    have hk0len : k0 < ns.length := get?_some_lt hget0
    have hsum1 : validSum (invalidateAt ns k0) + nd0.weight = wsum ws := by
      rw [validSum_invalidate ns k0 nd0 hget0 hval0]
      exact hA
    have hcount1 : validCount (invalidateAt ns k0) + 1 = validCount ns :=
      validCount_invalidate ns k0 nd0 hget0 hval0
    have hw0pos : 0 < nd0.weight := hB k0 nd0 hget0 hval0
    have hB1 : ∀ j nd, (invalidateAt ns k0).get? j = some nd → nd.valid = true →
        0 < nd.weight := by
      intro j nd hj hv
      rcases get_invalidate_cases ns k0 j nd hj with horig | ⟨_, ndo, hndo, hby⟩
      · exact hB j nd horig hv
      · subst hby
        simp at hv
    have hwlt1 : ∀ j nd, (invalidateAt ns k0).get? j = some nd → nd.valid = true →
        nd.weight < 4294967295 := by
      intro j nd hj hv
      have := weight_le_validSum (invalidateAt ns k0) j nd hj hv
      omega
    cases hsel1 : selectChild v2m 1 (invalidateAt ns k0) with
    | none =>
      -- the single valid node carried the whole weight: break at once
      have hnov : ∀ j nd, (invalidateAt ns k0).get? j = some nd → nd.valid = false :=
        selectChild_none_no_valid v2m 1 _ hwlt1 hsel1
      have hsum10 : validSum (invalidateAt ns k0) = 0 := by
        apply validSum_zero_of_no_valid
        intro nd hm
        obtain ⟨j, hj⟩ := List.get?_of_mem hm
        exact hnov j nd hj
      have hw0tot : nd0.weight = wsum ws := by omega
      have hp1 : pickOne v2m 1 (invalidateAt ns k0) (nd0.weight)
          = (invalidateAt ns k0, nd0.weight, -1) := by
        simp [pickOne, hsel1]
      have hstep : huffman_step v2m ns =
          ((invalidateAt ns k0) ++ [⟨true, true, nd0.weight, Int.ofNat k0, -1⟩],
           nd0.weight) := by
        simp [huffman_step, hp0, hp1]
      refine ⟨(invalidateAt ns k0) ++ [⟨true, true, nd0.weight, Int.ofNat k0, -1⟩],
        ?_, ?_, ?_, ?_⟩
      · rw [huffman_loop]
        simp only [hstep]
        rw [if_pos (by omega)]
      · -- root is the appended parent with the full weight
        refine ⟨⟨true, true, nd0.weight, Int.ofNat k0, -1⟩, ?_, rfl, by simpa using hw0tot⟩
        have : ((invalidateAt ns k0) ++
            [(⟨true, true, nd0.weight, Int.ofNat k0, -1⟩ : HuffmanNode)]).length - 1
            = (invalidateAt ns k0).length := by
          simp
        rw [this, List.get?_concat_length]
      · exact parentOK_append (parentOK_invalidate k0 hC)
          ⟨⟨k0, rfl, by rw [invalidateAt_length]; exact hk0len⟩, .inl rfl⟩
      · intro i w hiw hwne
        obtain ⟨j, ndj, hgetj, hvalj, hreachj⟩ := hD i w hiw hwne
        have hjk0 : j = k0 := by
          by_contra hne
          have : (invalidateAt ns k0).get? j = some ndj := by
            rw [invalidateAt_get_ne ns k0 j hne]
            exact hgetj
          have := hnov j ndj this
          rw [hvalj] at this
          simp at this
        rw [hjk0] at hreachj
        have hlast : ((invalidateAt ns k0) ++
            [(⟨true, true, nd0.weight, Int.ofNat k0, -1⟩ : HuffmanNode)]).length - 1
            = (invalidateAt ns k0).length := by simp
        rw [hlast]
        exact .left _ (List.get?_concat_length _ _) rfl
          (reach_append _ _ (reach_invalidate ns k0 hreachj))
    | some k1 =>
      obtain ⟨nd1, hget1, hval1⟩ := selectChild_some_valid v2m 1 _ k1 hsel1
      have hp1 : pickOne v2m 1 (invalidateAt ns k0) (nd0.weight)
          = (invalidateAt (invalidateAt ns k0) k1,
             nd0.weight + nd1.weight, Int.ofNat k1) := by
        have hget1b : (invalidateAt ns k0)[k1]? = some nd1 := by
          rw [← List.get?_eq_getElem?]
          exact hget1
        unfold pickOne
        rw [hsel1]
        simp [hget1b]
      have hstep : huffman_step v2m ns =
          ((invalidateAt (invalidateAt ns k0) k1) ++
            [⟨true, true, nd0.weight + nd1.weight, Int.ofNat k0, Int.ofNat k1⟩],
           nd0.weight + nd1.weight) := by
        simp [huffman_step, hp0, hp1]
      have hk1len : k1 < ns.length := by
        have := get?_some_lt hget1
        rwa [invalidateAt_length] at this
      have hw1pos : 0 < nd1.weight := hB1 k1 nd1 hget1 hval1
      have hw1le : nd1.weight ≤ validSum (invalidateAt ns k0) :=
        weight_le_validSum _ k1 nd1 hget1 hval1
      have hsum2 : validSum (invalidateAt (invalidateAt ns k0) k1)
          + nd1.weight + nd0.weight = wsum ws := by
        rw [validSum_invalidate _ k1 nd1 hget1 hval1]
        exact hsum1
      have hcount2 : validCount (invalidateAt (invalidateAt ns k0) k1) + 1
          = validCount (invalidateAt ns k0) :=
        validCount_invalidate _ k1 nd1 hget1 hval1
      by_cases hbr : wsum ws ≤ nd0.weight + nd1.weight
      · -- break: both selected nodes carried the whole weight
        have hw2tot : nd0.weight + nd1.weight = wsum ws := by omega
        have hsum20 : validSum (invalidateAt (invalidateAt ns k0) k1) = 0 := by omega
        refine ⟨(invalidateAt (invalidateAt ns k0) k1) ++
          [⟨true, true, nd0.weight + nd1.weight, Int.ofNat k0, Int.ofNat k1⟩],
          ?_, ?_, ?_, ?_⟩
        · rw [huffman_loop]
          simp only [hstep]
          rw [if_pos hbr]
        · refine ⟨⟨true, true, nd0.weight + nd1.weight, Int.ofNat k0, Int.ofNat k1⟩,
            ?_, rfl, by simpa using hw2tot⟩
          have : ((invalidateAt (invalidateAt ns k0) k1) ++
              [(⟨true, true, nd0.weight + nd1.weight, Int.ofNat k0,
                Int.ofNat k1⟩ : HuffmanNode)]).length - 1
              = (invalidateAt (invalidateAt ns k0) k1).length := by simp
          rw [this, List.get?_concat_length]
        · refine parentOK_append (parentOK_invalidate k1 (parentOK_invalidate k0 hC))
            ⟨⟨k0, rfl, ?_⟩, .inr ⟨k1, rfl, ?_⟩⟩ <;>
            rw [invalidateAt_length, invalidateAt_length] <;> assumption
        · intro i w hiw hwne
          obtain ⟨j, ndj, hgetj, hvalj, hreachj⟩ := hD i w hiw hwne
          have hlast : ((invalidateAt (invalidateAt ns k0) k1) ++
              [(⟨true, true, nd0.weight + nd1.weight, Int.ofNat k0,
                Int.ofNat k1⟩ : HuffmanNode)]).length - 1
              = (invalidateAt (invalidateAt ns k0) k1).length := by simp
          rw [hlast]
          have hreach2 : Reach ((invalidateAt (invalidateAt ns k0) k1) ++
              [(⟨true, true, nd0.weight + nd1.weight, Int.ofNat k0,
                Int.ofNat k1⟩ : HuffmanNode)]) j i :=
            reach_append _ _ (reach_invalidate _ k1 (reach_invalidate ns k0 hreachj))
          by_cases hjk0 : j = k0
          · exact .left _ (List.get?_concat_length _ _) (by rw [hjk0]) hreach2
          · by_cases hjk1 : j = k1
            · exact .right _ (List.get?_concat_length _ _) (by rw [hjk1]) hreach2
            · exfalso
              have hstill : (invalidateAt (invalidateAt ns k0) k1).get? j = some ndj := by
                rw [invalidateAt_get_ne _ k1 j hjk1, invalidateAt_get_ne ns k0 j hjk0]
                exact hgetj
              have hwz := validSum_zero_valid _ hsum20 j ndj hstill hvalj
              have := hB j ndj hgetj hvalj
              omega
      · -- continue: re-establish the invariant and recurse
        have hInv2 : huffInv ws ((invalidateAt (invalidateAt ns k0) k1) ++
            [⟨true, true, nd0.weight + nd1.weight, Int.ofNat k0, Int.ofNat k1⟩]) := by
          refine ⟨?_, ?_, ?_, ?_⟩
          · rw [validSum_append]
            simp
            omega
          · intro j nd hget hv
            by_cases hj : j < (invalidateAt (invalidateAt ns k0) k1).length
            · rw [List.get?_append hj] at hget
              rcases get_invalidate_cases _ k1 j nd hget with h2 | ⟨_, ndo, hndo, hby⟩
              · exact hB1 j nd h2 hv
              · subst hby
                simp at hv
            · have hlt := get?_some_lt hget
              rw [List.length_append, List.length_cons, List.length_nil] at hlt
              have : j = (invalidateAt (invalidateAt ns k0) k1).length := by omega
              subst this
              rw [List.get?_concat_length] at hget
              cases hget
              simp only
              omega
          · exact parentOK_append (parentOK_invalidate k1 (parentOK_invalidate k0 hC))
              ⟨⟨k0, rfl, by rw [invalidateAt_length, invalidateAt_length]; exact hk0len⟩,
               .inr ⟨k1, rfl, by rw [invalidateAt_length, invalidateAt_length]; exact hk1len⟩⟩
          · intro i w hiw hwne
            obtain ⟨j, ndj, hgetj, hvalj, hreachj⟩ := hD i w hiw hwne
            have hreach2 : Reach ((invalidateAt (invalidateAt ns k0) k1) ++
                [(⟨true, true, nd0.weight + nd1.weight, Int.ofNat k0,
                  Int.ofNat k1⟩ : HuffmanNode)]) j i :=
              reach_append _ _ (reach_invalidate _ k1 (reach_invalidate ns k0 hreachj))
            by_cases hjk0 : j = k0
            · refine ⟨(invalidateAt (invalidateAt ns k0) k1).length, _,
                List.get?_concat_length _ _, rfl,
                .left _ (List.get?_concat_length _ _) ?_ hreach2⟩
              rw [hjk0]
            · by_cases hjk1 : j = k1
              · refine ⟨(invalidateAt (invalidateAt ns k0) k1).length, _,
                  List.get?_concat_length _ _, rfl,
                  .right _ (List.get?_concat_length _ _) ?_ hreach2⟩
                rw [hjk1]
              · refine ⟨j, ndj, ?_, hvalj, hreach2⟩
                have hj2 : (invalidateAt (invalidateAt ns k0) k1).get? j = some ndj := by
                  rw [invalidateAt_get_ne _ k1 j hjk1, invalidateAt_get_ne ns k0 j hjk0]
                  exact hgetj
                rw [List.get?_append (get?_some_lt hj2)]
                exact hj2
        have hcount3 : validCount ((invalidateAt (invalidateAt ns k0) k1) ++
            [(⟨true, true, nd0.weight + nd1.weight, Int.ofNat k0,
              Int.ofNat k1⟩ : HuffmanNode)]) ≤ f := by
          rw [validCount_append_valid _ _ rfl]
          omega
        obtain ⟨out, hloop, htree⟩ := ih _ hInv2 hcount3 hpos hmax
        refine ⟨out, ?_, htree⟩
        rw [huffman_loop]
        simp only [hstep]
        rw [if_neg hbr]
        exact hloop

/-- The initial leaf list satisfies the construction invariant:
its valid weights sum to the table total, valid leaves have positive
weight, there are no parents, and every non-zero leaf reaches itself. -/
theorem huffInv_leaves (ws : List Nat) : huffInv ws (huffman_leaves ws) := by
  refine ⟨?_, ?_, ?_, ?_⟩
  · induction ws with
    | nil => rfl
    | cons w tl ih =>
      show validSum ((⟨decide (w ≠ 0), false, w, 0, 0⟩ : HuffmanNode) ::
        huffman_leaves tl) = wsum (w :: tl)
      rw [validSum_cons, ih]
      show (if decide (w ≠ 0) = true then w else 0) + wsum tl = wsum (w :: tl)
      have hs : wsum (w :: tl) = w + wsum tl := by
        unfold wsum
        rw [List.sum_cons]
      rw [hs]
      by_cases hw : w = 0
      · subst hw
        simp
      · simp [hw]
  · intro j nd hget hval
    unfold huffman_leaves at hget
    rw [List.get?_map] at hget
    cases hws : ws.get? j with
    | none =>
      rw [hws] at hget
      simp at hget
    | some w =>
      rw [hws] at hget
      simp at hget
      subst hget
      simp at hval ⊢
      omega
  · intro j nd hget hp
    unfold huffman_leaves at hget
    rw [List.get?_map] at hget
    cases hws : ws.get? j with
    | none =>
      rw [hws] at hget
      simp at hget
    | some w =>
      rw [hws] at hget
      simp at hget
      subst hget
      simp at hp
  · intro i w hws hw
    refine ⟨i, ⟨decide (w ≠ 0), false, w, 0, 0⟩, ?_, by simp [hw], .refl i⟩
    unfold huffman_leaves
    rw [List.get?_map, hws]
    rfl

/-- On an all-zero byte source with an all-zero cache, `get_next_bit`
returns bit 0 as long as at least one bit is available, consuming
exactly one bit of the available budget. -/
theorem get_next_bit_zero (s : MsbBitStream) (hz : ∀ b ∈ s.data, b = 0)
    (hc : s.cache = 0)
    (ha : 1 ≤ (s.data.length - s.pos) * 8 + s.cacheSize) :
    ∃ s2, get_next_bit s = .ok (0, s2) ∧ s2.data = s.data ∧ s2.cache = 0 ∧
      (s2.data.length - s2.pos) * 8 + s2.cacheSize + 1
        = (s.data.length - s.pos) * 8 + s.cacheSize := by
  obtain ⟨data, pos, cache, cs⟩ := s
  simp only at hz hc ha ⊢
  subst hc
  by_cases hcs : cs = 0
  · subst hcs
    have hpos : pos < data.length := by omega
    have hg : data.get? pos = some 0 := by
      cases hg0 : data.get? pos with
      | none =>
        exfalso
        rw [List.get?_eq_getElem?, List.getElem?_eq_getElem hpos] at hg0
        exact Option.noConfusion hg0
      | some b =>
        rw [hz b (List.get?_mem hg0)]
    have hcval : data.getD pos 0 = 0 := by
      rw [List.getD_eq_get?, hg]
      rfl
    refine ⟨⟨data, pos + 1, 0, 7⟩, ?_, rfl, rfl, ?_⟩
    · show (if (0 : Nat) = 0 then
          if data.length ≤ pos then (.error .InvalidFormat : ArcResult (Nat × MsbBitStream))
          else .ok ((data.getD pos 0 >>> 7) &&& 1, ⟨data, pos + 1, data.getD pos 0, 7⟩)
        else _) = _
      rw [if_pos rfl, if_neg (Nat.not_le.mpr hpos), hcval]
      simp
    · show (data.length - (pos + 1)) * 8 + 7 + 1 = (data.length - pos) * 8 + 0
      omega
  · refine ⟨⟨data, pos, 0, cs - 1⟩, ?_, rfl, rfl, ?_⟩
    · show (if cs = 0 then _
        else (.ok (((0 : Nat) >>> (cs - 1)) &&& 1, ⟨data, pos, 0, cs - 1⟩)
          : ArcResult (Nat × MsbBitStream))) = _
      rw [if_neg hcs]
      simp
    · show (data.length - pos) * 8 + (cs - 1) + 1 = (data.length - pos) * 8 + cs
      omega

/-- On an all-zero bit stream, `decode_token` strictly descends left
children: starting from any index `j` in a list with well-formed
parent links, with fuel and available bits exceeding `j`, the descent
terminates at a non-parent node. -/
theorem decode_zero_descends (ns : List HuffmanNode) (hpo : parentOK ns) :
    ∀ (fuel : Nat), ∀ (j : Nat) (s : MsbBitStream), j < ns.length → j + 1 ≤ fuel →
    (∀ b ∈ s.data, b = 0) → s.cache = 0 →
    j + 1 ≤ (s.data.length - s.pos) * 8 + s.cacheSize →
    ∃ t s2, decode_token_go fuel ns (Int.ofNat j) s = .ok (t, s2) ∧
      ∃ nd, ns.get? t = some nd ∧ nd.is_parent = false := by
  intro fuel
  induction fuel with
  | zero =>
    intro j s _ hf _ _ _
    omega
  | succ f ih =>
    intro j s hj hf hz hc ha
    have hgj : ns.get? j = some ns[j] := by
      rw [List.get?_eq_getElem?]
      exact List.getElem?_eq_getElem hj
    have hstep : decode_token_go (f + 1) ns (Int.ofNat j) s
        = (match ns.get? j with
           | none => .error .Panic
           | some nd =>
             if nd.is_parent = true then
               match get_next_bit s with
               | .error e => .error e
               | .ok (bit, s2) =>
                 decode_token_go f ns
                   (if bit = 0 then nd.left_child_index else nd.right_child_index) s2
             else .ok (j, s)) := rfl
    by_cases hp : ns[j].is_parent = true
    · obtain ⟨⟨l, hl, hlj⟩, _⟩ := hpo j ns[j] hgj hp
      obtain ⟨s2, hbit, hd2, hc2, ha2⟩ := get_next_bit_zero s hz hc (by omega)
      have heq : decode_token_go (f + 1) ns (Int.ofNat j) s
          = decode_token_go f ns ns[j].left_child_index s2 := by
        rw [hstep, hgj]
        show (if ns[j].is_parent = true then
            match get_next_bit s with
            | Except.error e => Except.error e
            | Except.ok (bit, s3) =>
              decode_token_go f ns
                (if bit = 0 then ns[j].left_child_index
                 else ns[j].right_child_index) s3
          else Except.ok (j, s)) = _
        rw [if_pos hp, hbit]
        rfl
      rw [heq, hl]
      exact ih l s2 (by omega) (by omega) (by rw [hd2]; exact hz) hc2 (by omega)
    · have heq : decode_token_go (f + 1) ns (Int.ofNat j) s = .ok (j, s) := by
        rw [hstep, hgj]
        show (if ns[j].is_parent = true then
            match get_next_bit s with
            | Except.error e => Except.error e
            | Except.ok (bit, s3) =>
              decode_token_go f ns
                (if bit = 0 then ns[j].left_child_index
                 else ns[j].right_child_index) s3
          else Except.ok (j, s)) = _
        rw [if_neg hp]
      exact ⟨j, s, heq, ns[j], hgj, by simpa using hp⟩

/-- If every valid node weighs at least `minw`, the strict scan with
no seed finds nothing. -/
theorem scanGo_none_of : ∀ (l : List HuffmanNode) (n minw : Nat),
    (∀ nd ∈ l, nd.valid = true → minw ≤ nd.weight) →
    scanGo l n minw none = none := by
  intro l
  induction l with
  | nil =>
    intro n minw _
    rfl
  | cons hd tl ih =>
    intro n minw h
    have hno : ¬(hd.valid = true ∧ hd.weight < minw) := by
      rintro ⟨hv, hw⟩
      have := h hd (List.mem_cons_self hd tl) hv
      omega
    rw [scanGo, if_neg hno]
    exact ih (n + 1) minw (fun nd hm hv => h nd (List.mem_cons_of_mem hd hm) hv)

/-- A node selected by the v1 scan is valid and weighs strictly less
than the `u32::MAX` sentinel. -/
theorem selectChild_v1_some_weight (ns : List HuffmanNode) (k : Nat)
    (h : selectChild false 0 ns = some k) :
    ∃ nd, ns.get? k = some nd ∧ nd.valid = true ∧ nd.weight < 4294967295 := by
  have h2 : scanGo ns 0 4294967295 none = some k := h
  rcases scanGo_some _ _ _ _ _ h2 with heq | ⟨_, nd, hget, hval, hwlt⟩
  · simp at heq
  · rw [Nat.sub_zero] at hget
    exact ⟨nd, hget, hval, hwlt⟩

/-- A poisoned construction state: node 0 is a valid leaf whose
weight equals the `u32::MAX` selection sentinel, and every later node
weighs 0, the only possibly valid one being the last. -/
def badInv (ns : List HuffmanNode) : Prop :=
  ns.get? 0 = some ⟨true, false, 4294967295, 0, 0⟩ ∧
  (∀ j nd, ns.get? j = some nd → 1 ≤ j → nd.weight = 0 ∧
    (nd.valid = true → j = ns.length - 1))

/-- From a poisoned state the v1 construction loop never reaches the
break condition `weight >= root_node_weight = u32::MAX`: the sentinel
leaf is never selectable, so every iteration appends a weight-0
parent and re-establishes the poisoned state; the loop runs out of
any fuel (i.e. the Rust `loop` never terminates). -/
theorem huffman_loop_max_diverges : ∀ (fuel : Nat) (ns : List HuffmanNode),
    badInv ns → huffman_loop false 4294967295 fuel ns = .error .Panic := by
  intro fuel
  induction fuel with
  | zero =>
    intro ns _
    rfl
  | succ f ih =>
    intro ns hbad
    obtain ⟨h0, hrest⟩ := hbad
    cases hsel : selectChild false 0 ns with
    | none =>
      have h2 : scanGo ns 0 4294967295 none = none := hsel
      obtain ⟨-, hge⟩ := scanGo_none ns 0 4294967295 none h2
      have hp0 : pickOne false 0 ns 0 = (ns, 0, -1) := by
        simp [pickOne, hsel]
      have hsel1 : selectChild false 1 ns = none := hsel
      have hp1 : pickOne false 1 ns 0 = (ns, 0, -1) := by
        simp [pickOne, hsel1]
      have hstep : huffman_step false ns
          = (ns ++ [⟨true, true, 0, -1, -1⟩], 0) := by
        simp [huffman_step, hp0, hp1]
      rw [huffman_loop]
      simp only [hstep]
      rw [if_neg (by omega)]
      apply ih
      refine ⟨?_, ?_⟩
      · rw [List.get?_append (get?_some_lt h0)]
        exact h0
      · intro j nd2 hget hj1
        by_cases hjlt : j < ns.length
        · rw [List.get?_append hjlt] at hget
          obtain ⟨hwz2, _⟩ := hrest j nd2 hget hj1
          refine ⟨hwz2, fun hv => ?_⟩
          have := hge nd2 (List.get?_mem hget) hv
          omega
        · have hlt := get?_some_lt hget
          rw [List.length_append, List.length_cons, List.length_nil] at hlt
          have hjeq : j = ns.length := by omega
          rw [hjeq, List.get?_concat_length] at hget
          cases hget
          refine ⟨rfl, fun _ => ?_⟩
          rw [hjeq]
          simp
    | some k =>
      obtain ⟨nd, hgetk, hvalk, hwk⟩ := selectChild_v1_some_weight ns k hsel
      have hk0 : 1 ≤ k := by
        rcases Nat.eq_zero_or_pos k with hz | hp
        · subst hz
          rw [h0] at hgetk
          cases hgetk
          exact absurd hwk (by decide)
        · exact hp
      obtain ⟨hwz, hvlast⟩ := hrest k nd hgetk hk0
      have hklast : k = ns.length - 1 := hvlast hvalk
      have hgetkb : ns[k]? = some nd := by
        rw [← List.get?_eq_getElem?]
        exact hgetk
      have hp0 : pickOne false 0 ns 0
          = (invalidateAt ns k, nd.weight, Int.ofNat k) := by
        unfold pickOne
        rw [hsel]
        simp [hgetkb]
      have hsel1 : selectChild false 1 (invalidateAt ns k) = none := by
        show scanGo (invalidateAt ns k) 0 4294967295 none = none
        apply scanGo_none_of
        intro nd2 hmem hv
        obtain ⟨j, hj⟩ := List.get?_of_mem hmem
        by_cases hjk : j = k
        · subst hjk
          rw [invalidateAt_get_self ns j nd hgetk] at hj
          cases hj
          simp at hv
        · rw [invalidateAt_get_ne ns k j hjk] at hj
          rcases Nat.eq_zero_or_pos j with hjz | hjp
          · subst hjz
            rw [h0] at hj
            cases hj
            exact le_refl _
          · obtain ⟨_, hvl⟩ := hrest j nd2 hj hjp
            exact absurd (hvl hv) (by omega)
      have hp1 : pickOne false 1 (invalidateAt ns k) nd.weight
          = (invalidateAt ns k, nd.weight, -1) := by
        simp [pickOne, hsel1]
      have hstep : huffman_step false ns
          = ((invalidateAt ns k)
              ++ [⟨true, true, nd.weight, Int.ofNat k, -1⟩], nd.weight) := by
        simp [huffman_step, hp0, hp1]
      rw [huffman_loop]
      simp only [hstep]
      rw [if_neg (by omega)]
      apply ih
      refine ⟨?_, ?_⟩
      · have h0i : (invalidateAt ns k).get? 0
            = some ⟨true, false, 4294967295, 0, 0⟩ := by
          rw [invalidateAt_get_ne ns k 0 (by omega)]
          exact h0
        rw [List.get?_append (get?_some_lt h0i)]
        exact h0i
      · intro j nd2 hget hj1
        by_cases hjlt : j < (invalidateAt ns k).length
        · rw [List.get?_append hjlt] at hget
          by_cases hjk : j = k
          · subst hjk
            rw [invalidateAt_get_self ns j nd hgetk] at hget
            cases hget
            refine ⟨hwz, fun hv => ?_⟩
            simp at hv
          · rw [invalidateAt_get_ne ns k j hjk] at hget
            obtain ⟨hwz2, hvl2⟩ := hrest j nd2 hget hj1
            refine ⟨hwz2, fun hv => ?_⟩
            exact absurd (hvl2 hv) (by omega)
        · have hlt := get?_some_lt hget
          rw [List.length_append, List.length_cons, List.length_nil] at hlt
          have hjeq : j = (invalidateAt ns k).length := by omega
          rw [hjeq, List.get?_concat_length] at hget
          cases hget
          refine ⟨hwz, fun _ => ?_⟩
          rw [hjeq]
          simp

/-- The poisoned state is reached immediately on the weight table
`[u32::MAX]`: `HuffmanTree::new` loops forever on it, for any fuel. -/
theorem huffman_new_max_diverges : ∀ fuel : Nat,
    huffman_loop false (wsum [4294967295]) fuel (huffman_leaves [4294967295])
      = .error .Panic := by
  intro fuel
  apply huffman_loop_max_diverges fuel
  refine ⟨by decide, ?_⟩
  intro j nd hget hj
  have hL : (huffman_leaves [4294967295]).length = 1 := rfl
  have h2 := get?_some_lt hget
  rw [hL] at h2
  omega

/-- C6 (corrected): for every weight table with at least one strictly
positive weight whose total weight stays below the `u32::MAX`
selection sentinel, `HuffmanTree::new` terminates successfully; in
the resulting node list the root is the last appended node and its
weight equals the sum of the table, every parent's left child is
present and sits strictly below it (the right child is `-1` or also
strictly below), every leaf with non-zero weight is reachable from
the root, and decoding the all-zero MSB bit stream strictly descends
left children, terminating at a non-parent node.  The original
claim's hypothesis (table non-empty with a positive weight) does not
suffice: on `[u32::MAX]` the construction loop never terminates, see
`huffman_new_max_diverges`. -/
theorem cbg_huffman_tree_invariants (ws : List Nat) (v2m : Bool)
    (hpos : 0 < wsum ws) (hmax : wsum ws < 4294967295) :
    ∃ ns, huffman_new ws v2m = .ok ns ∧
      (∃ P, ns.get? (ns.length - 1) = some P ∧ P.is_parent = true ∧
        P.weight = wsum ws) ∧
      parentOK ns ∧
      (∀ i w, ws.get? i = some w → w ≠ 0 → Reach ns (ns.length - 1) i) ∧
      (∃ t s2, decode_token ns (zeroStream ns.length) = .ok (t, s2) ∧
        ∃ nd, ns.get? t = some nd ∧ nd.is_parent = false) := by
  obtain ⟨out, hloop, htree⟩ := huffman_loop_spec v2m ws (ws.length + 1)
    (huffman_leaves ws) (huffInv_leaves ws)
    (by
      have h1 := validCount_le_length (huffman_leaves ws)
      have h2 : (huffman_leaves ws).length = ws.length := by
        unfold huffman_leaves
        rw [List.length_map]
      omega)
    hpos hmax
  obtain ⟨⟨P, hPget, hPpar, hPw⟩, hpo, hreach⟩ := htree
  have hlen1 : 1 ≤ out.length := by
    have := get?_some_lt hPget
    omega
  have hdec := decode_zero_descends out hpo (out.length + 1) (out.length - 1)
    (zeroStream out.length) (by omega) (by omega)
    (fun b hb => List.eq_of_mem_replicate hb) rfl
    (by
      show out.length - 1 + 1 ≤ ((List.replicate out.length 0).length - 0) * 8 + 0
      rw [List.length_replicate]
      omega)
  exact ⟨out, hloop, ⟨P, hPget, hPpar, hPw⟩, hpo, hreach, hdec⟩

/-- C6 counterexample: the one-entry weight table `[u32::MAX]` is
non-empty with a strictly positive weight, yet `HuffmanTree::new`
never terminates on it — the v1 selection scan's sentinel makes the
sole leaf unselectable, so the accumulated weight stays 0 forever. -/
theorem cbg_huffman_tree_invariants_counterexample :
    huffman_new [4294967295] false = .error .Panic :=
  huffman_new_max_diverges 2

/-- C6 witness: the two-symbol table `[1, 1]` in v1 mode. -/
theorem cbg_huffman_tree_invariants_witness :
    0 < wsum [1, 1] ∧ wsum [1, 1] < 4294967295 ∧
    (∃ ns, huffman_new [1, 1] false = .ok ns ∧
      (∃ P, ns.get? (ns.length - 1) = some P ∧ P.is_parent = true ∧
        P.weight = wsum [1, 1]) ∧
      parentOK ns ∧
      (∀ i w, ([1, 1] : List Nat).get? i = some w → w ≠ 0 →
        Reach ns (ns.length - 1) i) ∧
      (∃ t s2, decode_token ns (zeroStream ns.length) = .ok (t, s2) ∧
        ∃ nd, ns.get? t = some nd ∧ nd.is_parent = false)) :=
  ⟨by decide, by decide,
    cbg_huffman_tree_invariants [1, 1] false (by decide) (by decide)⟩
